import Mathlib

/-!
Shallow embedding of the MCP-IQA-Server repository (kmamine/MCP-IQA-Server).

The embedded code lives in `src/iqa_server/`:
  * `utils/performance.py`   — `PerformanceMonitor`, `LRUCache` (with the module
    constants `DEFAULT_CACHE_SIZE` and `CACHE_TIMEOUT` from `core/constants.py`);
  * `server/handlers.py`     — `handle_assess_image_quality`,
    `handle_batch_assessment` (two definitions: the later one shadows the
    former under Python module semantics);
  * `indicators/interpretations.py` — `ScoreRange`, `MetricInterpretation`,
    `INTERPRETATIONS`, and the `get_metric_interpretation` branch of
    `IQAServer.handle_tool_call` in `server/mcp_server.py`.

Modelling conventions:
  * Python `dict`s are modelled by `IQA.SMap`, an association list whose
    insert overwrites in place (as a `dict` keeps the original position of an
    overwritten key) and appends fresh keys at the end (insertion order).
  * `time.time()` is modelled by an explicit integer clock argument `now`;
    within a single request every cache operation is taken at the same
    instant (the real calls happen microseconds apart).
  * Python floats carrying scores and durations are modelled by `ℚ`,
    timestamps by `Int`; `float('inf')`, which appears as the initial
    `min_time` and as an interpretation-band bound, is modelled by the
    two-constructor type `IQA.FloatV`.
  * Exceptions are modelled by `Except String`; `raise` is `.error`, a normal
    return is `.ok`.
  * The external scoring collaborator (`pyiqa.create_metric` followed by the
    metric call) and the image validator (`validate_image_path`, which touches
    the filesystem and PIL) are opaque parameters collected in `IQA.Env`.
-/

namespace IQA

/-- First-match association-list lookup, the core of the Python `dict` model. -/
def lookupL {α : Type} : List (String × α) → String → Option α
  | [], _ => none
  | e :: es, k => if e.1 = k then some e.2 else lookupL es k

/-- Key membership in an association list. -/
def containsL {α : Type} : List (String × α) → String → Bool
  | [], _ => false
  | e :: es, k => (e.1 = k) || containsL es k

/-- Python dict assignment `d[k] = v` on the underlying association list:
overwrite in place if present, append at the end otherwise. -/
def insertL {α : Type} (l : List (String × α)) (k : String) (v : α) :
    List (String × α) :=
  if containsL l k then l.map (fun e => if e.1 = k then (k, v) else e)
  else l ++ [(k, v)]

/-- Python `d.pop(k)` on the underlying association list. -/
def eraseL {α : Type} (l : List (String × α)) (k : String) :
    List (String × α) :=
  l.filter (fun e => ¬ (e.1 = k))

theorem lookupL_map_replace_self {α : Type} (l : List (String × α))
    (k : String) (v : α) (h : containsL l k = true) :
    lookupL (l.map (fun e => if e.1 = k then (k, v) else e)) k = some v := by
  induction l with
  | nil => simp [containsL] at h
  | cons e es ih =>
    by_cases he : e.1 = k
    · simp [lookupL, he]
    · rw [containsL] at h
      simp only [he, decide_eq_true_eq, Bool.false_or] at h
      have h' : containsL es k = true := by
        cases hc : containsL es k with
        | true => rfl
        | false => rw [hc] at h; simp [he] at h
      simp only [List.map_cons, if_neg he, lookupL, he, if_false]
      exact ih h'

theorem lookupL_append_fresh {α : Type} (l : List (String × α))
    (k : String) (v : α) (h : containsL l k = false) :
    lookupL (l ++ [(k, v)]) k = some v := by
  induction l with
  | nil => simp [lookupL]
  | cons e es ih =>
    rw [containsL] at h
    by_cases he : e.1 = k
    · simp [he] at h
    · simp only [he, decide_eq_true_eq, Bool.false_or] at h
      have h' : containsL es k = false := by
        cases hc : containsL es k with
        | true => rw [hc] at h; simp [he] at h
        | false => rfl
      simp only [List.cons_append, lookupL, if_neg he]
      exact ih h'

theorem lookupL_insertL_self {α : Type} (l : List (String × α))
    (k : String) (v : α) : lookupL (insertL l k v) k = some v := by
  unfold insertL
  cases h : containsL l k with
  | true => simpa using lookupL_map_replace_self l k v h
  | false => simpa using lookupL_append_fresh l k v h

theorem lookupL_map_replace_ne {α : Type} (l : List (String × α))
    (k k' : String) (v : α) (h : k' ≠ k) :
    lookupL (l.map (fun e => if e.1 = k then (k, v) else e)) k' =
      lookupL l k' := by
  induction l with
  | nil => rfl
  | cons e es ih =>
    by_cases he : e.1 = k
    · have hkk' : ¬ (k = k') := fun hk => h hk.symm
      have he' : ¬ (e.1 = k') := by rw [he]; exact hkk'
      simp only [List.map_cons, if_pos he, lookupL, hkk', if_false,
        if_neg he']
      exact ih
    · simp only [List.map_cons, if_neg he, lookupL]
      by_cases he' : e.1 = k'
      · simp [he']
      · simp only [if_neg he']
        exact ih

theorem lookupL_append_single_ne {α : Type} (l : List (String × α))
    (k k' : String) (v : α) (h : k' ≠ k) :
    lookupL (l ++ [(k, v)]) k' = lookupL l k' := by
  induction l with
  | nil =>
    have hkk' : ¬ (k = k') := fun hk => h hk.symm
    simp [lookupL, hkk']
  | cons e es ih =>
    by_cases he' : e.1 = k'
    · simp [lookupL, he']
    · simp only [List.cons_append, lookupL, if_neg he']
      exact ih

theorem lookupL_insertL_ne {α : Type} (l : List (String × α))
    (k k' : String) (v : α) (h : k' ≠ k) :
    lookupL (insertL l k v) k' = lookupL l k' := by
  unfold insertL
  by_cases hc : containsL l k
  · simpa [hc] using lookupL_map_replace_ne l k k' v h
  · simpa [hc] using lookupL_append_single_ne l k k' v h

theorem lookupL_eraseL_self {α : Type} (l : List (String × α)) (k : String) :
    lookupL (eraseL l k) k = none := by
  unfold eraseL
  induction l with
  | nil => rfl
  | cons e es ih =>
    by_cases he : e.1 = k
    · simpa [List.filter, he] using ih
    · simpa [List.filter, he, lookupL] using ih

theorem lookupL_eraseL_ne {α : Type} (l : List (String × α))
    (k k' : String) (h : k' ≠ k) :
    lookupL (eraseL l k) k' = lookupL l k' := by
  unfold eraseL
  induction l with
  | nil => rfl
  | cons e es ih =>
    rw [List.filter_cons]
    by_cases he : e.1 = k
    · have hdec : (decide ¬ (e.1 = k)) = false := by simp [he]
      rw [hdec]
      simp only [Bool.false_eq_true, if_false]
      have he' : ¬ (e.1 = k') := by rw [he]; exact fun hk => h hk.symm
      rw [lookupL, if_neg he']
      exact ih
    · have hdec : (decide ¬ (e.1 = k)) = true := by simp [he]
      rw [hdec, if_pos rfl]
      rw [lookupL, lookupL]
      by_cases he' : e.1 = k'
      · simp [he']
      · simp only [if_neg he']
        exact ih

theorem keysL_map_replace {α : Type} (l : List (String × α))
    (k : String) (v : α) :
    (l.map (fun e => if e.1 = k then (k, v) else e)).map (·.1) =
      l.map (·.1) := by
  induction l with
  | nil => rfl
  | cons e es ih =>
    by_cases he : e.1 = k
    · simp only [List.map_cons, if_pos he, ih]
      rw [← he]
    · simp only [List.map_cons, if_neg he, ih]

theorem keysL_insertL_mem {α : Type} (l : List (String × α))
    (k : String) (v : α) (h : containsL l k = true) :
    (insertL l k v).map (·.1) = l.map (·.1) := by
  unfold insertL
  simp only [h, if_true]
  exact keysL_map_replace l k v

theorem keysL_insertL_not_mem {α : Type} (l : List (String × α))
    (k : String) (v : α) (h : containsL l k = false) :
    (insertL l k v).map (·.1) = l.map (·.1) ++ [k] := by
  unfold insertL
  simp [h]

theorem keysL_eraseL {α : Type} (l : List (String × α)) (k : String) :
    (eraseL l k).map (·.1) = (l.map (·.1)).filter (fun x => ¬ (x = k)) := by
  unfold eraseL
  induction l with
  | nil => rfl
  | cons e es ih =>
    by_cases he : e.1 = k
    · simpa [List.filter, he] using ih
    · simpa [List.filter, he] using ih

theorem length_insertL_le {α : Type} (l : List (String × α))
    (k : String) (v : α) : (insertL l k v).length ≤ l.length + 1 := by
  unfold insertL
  by_cases h : containsL l k
  · simp [h]
  · simp [h]

theorem length_insertL_mem {α : Type} (l : List (String × α))
    (k : String) (v : α) (h : containsL l k = true) :
    (insertL l k v).length = l.length := by
  unfold insertL
  simp [h]

theorem length_eraseL_le {α : Type} (l : List (String × α)) (k : String) :
    (eraseL l k).length ≤ l.length :=
  List.length_filter_le _ _

theorem containsL_iff_lookupL {α : Type} (l : List (String × α)) (k : String) :
    containsL l k = true ↔ (lookupL l k).isSome := by
  induction l with
  | nil => simp [containsL, lookupL]
  | cons e es ih =>
    by_cases he : e.1 = k
    · simp [containsL, lookupL, he]
    · simp [containsL, lookupL, he, ih]

theorem length_eraseL_lt {α : Type} (l : List (String × α)) (k : String)
    (h : containsL l k = true) : (eraseL l k).length < l.length := by
  unfold eraseL
  apply List.length_filter_lt_length_iff_exists.mpr
  have hs : (lookupL l k).isSome := (containsL_iff_lookupL l k).mp h
  induction l with
  | nil => simp [lookupL] at hs
  | cons e es ih =>
    by_cases he : e.1 = k
    · exact ⟨e, List.mem_cons_self _ _, by simp [he]⟩
    · rw [lookupL, if_neg he] at hs
      have h' : containsL es k = true := (containsL_iff_lookupL es k).mpr hs
      obtain ⟨x, hx, hpx⟩ := ih h' hs
      exact ⟨x, List.mem_cons_of_mem _ hx, hpx⟩

theorem foldl_min_mem (xs : List (String × Int)) (b : String × Int) :
    (xs.foldl (fun b x => if x.2 < b.2 then x else b) b) = b ∨
    (xs.foldl (fun b x => if x.2 < b.2 then x else b) b) ∈ xs := by
  induction xs generalizing b with
  | nil => left; rfl
  | cons y ys ih =>
    simp only [List.foldl_cons]
    by_cases hy : y.2 < b.2
    · simp only [if_pos hy]
      rcases ih y with h' | h'
      · right; rw [h']; exact List.mem_cons_self _ _
      · right; exact List.mem_cons_of_mem _ h'
    · simp only [if_neg hy]
      rcases ih b with h' | h'
      · left; exact h'
      · right; exact List.mem_cons_of_mem _ h'

theorem foldl_min_of_head_min (xs : List (String × Int)) (b : String × Int)
    (h : ∀ y ∈ xs, b.2 < y.2) :
    xs.foldl (fun b x => if x.2 < b.2 then x else b) b = b := by
  induction xs with
  | nil => rfl
  | cons y ys ih =>
    simp only [List.foldl_cons]
    have hy : ¬ y.2 < b.2 := not_lt.mpr (le_of_lt (h y (List.mem_cons_self _ _)))
    rw [if_neg hy]
    exact ih (fun z hz => h z (List.mem_cons_of_mem _ hz))

/-- Model of a Python `dict` with `String` keys: an association list where
`insert` overwrites in place and appends fresh keys, `erase` models `pop`,
`lookup` models `d.get(k)`. -/
structure SMap (α : Type) where
  entries : List (String × α)
deriving Repr, DecidableEq

namespace SMap

def empty {α : Type} : SMap α := ⟨[]⟩

def lookup (m : SMap α) (k : String) : Option α := lookupL m.entries k

def contains (m : SMap α) (k : String) : Bool := containsL m.entries k

def insert (m : SMap α) (k : String) (v : α) : SMap α :=
  ⟨insertL m.entries k v⟩

def erase (m : SMap α) (k : String) : SMap α := ⟨eraseL m.entries k⟩

def size (m : SMap α) : Nat := m.entries.length

def keys (m : SMap α) : List String := m.entries.map (·.1)

/-- Python `min(d.items(), key=lambda x: x[1])`: the first item with minimal
value, scanning in insertion order. -/
def minEntry (m : SMap Int) : Option (String × Int) :=
  match m.entries with
  | [] => none
  | e :: es => some (es.foldl (fun b x => if x.2 < b.2 then x else b) e)

theorem lookup_empty {α : Type} (k : String) :
    (empty : SMap α).lookup k = none := rfl

theorem lookup_insert_self (m : SMap α) (k : String) (v : α) :
    (m.insert k v).lookup k = some v :=
  lookupL_insertL_self m.entries k v

theorem lookup_insert_ne (m : SMap α) (k k' : String) (v : α) (h : k' ≠ k) :
    (m.insert k v).lookup k' = m.lookup k' :=
  lookupL_insertL_ne m.entries k k' v h

theorem lookup_erase_self (m : SMap α) (k : String) :
    (m.erase k).lookup k = none :=
  lookupL_eraseL_self m.entries k

theorem lookup_erase_ne (m : SMap α) (k k' : String) (h : k' ≠ k) :
    (m.erase k).lookup k' = m.lookup k' :=
  lookupL_eraseL_ne m.entries k k' h

theorem contains_iff_lookup_isSome (m : SMap α) (k : String) :
    m.contains k = true ↔ (m.lookup k).isSome :=
  containsL_iff_lookupL m.entries k

theorem keys_insert_mem (m : SMap α) (k : String) (v : α)
    (h : m.contains k = true) : (m.insert k v).keys = m.keys :=
  keysL_insertL_mem m.entries k v h

theorem keys_insert_not_mem (m : SMap α) (k : String) (v : α)
    (h : m.contains k = false) : (m.insert k v).keys = m.keys ++ [k] :=
  keysL_insertL_not_mem m.entries k v h

theorem keys_erase (m : SMap α) (k : String) :
    (m.erase k).keys = m.keys.filter (fun x => ¬ (x = k)) :=
  keysL_eraseL m.entries k

theorem size_insert_le (m : SMap α) (k : String) (v : α) :
    (m.insert k v).size ≤ m.size + 1 :=
  length_insertL_le m.entries k v

theorem size_insert_mem (m : SMap α) (k : String) (v : α)
    (h : m.contains k = true) : (m.insert k v).size = m.size :=
  length_insertL_mem m.entries k v h

theorem size_erase_le (m : SMap α) (k : String) :
    (m.erase k).size ≤ m.size :=
  length_eraseL_le m.entries k

theorem size_erase_lt (m : SMap α) (k : String) (h : m.contains k = true) :
    (m.erase k).size < m.size :=
  length_eraseL_lt m.entries k h

theorem minEntry_mem (m : SMap Int) (e : String × Int)
    (h : m.minEntry = some e) : e ∈ m.entries := by
  unfold minEntry at h
  cases hm : m.entries with
  | nil => rw [hm] at h; exact absurd h (by simp)
  | cons x xs =>
    rw [hm] at h
    rw [Option.some_inj] at h
    rcases foldl_min_mem xs x with h' | h'
    · rw [← h, h']; exact List.mem_cons_self _ _
    · rw [← h]; exact List.mem_cons_of_mem _ h'

/-- When the head's value is strictly below every later value, Python's
`min` (first minimal in scan order) returns the head. -/
theorem minEntry_head (m : SMap Int) (x : String × Int)
    (xs : List (String × Int)) (hm : m.entries = x :: xs)
    (hlt : ∀ y ∈ xs, x.2 < y.2) : m.minEntry = some x := by
  have h1 : m.minEntry =
      some (xs.foldl (fun b x => if x.2 < b.2 then x else b) x) := by
    unfold minEntry
    rw [hm]
  rw [h1, foldl_min_of_head_min xs x hlt]

end SMap

/-! ## `utils/performance.py` — `LRUCache`

`core/constants.py`: `DEFAULT_CACHE_SIZE = 1000`, `CACHE_TIMEOUT = 3600`.
The Python class keeps two parallel dicts `self.cache` (values) and
`self.timestamps` (a single per-key timestamp, set by `put` and refreshed by
every non-expired `get`). -/

def DEFAULT_CACHE_SIZE : Nat := 1000

def CACHE_TIMEOUT : Int := 3600

structure LRUCache (α : Type) where
  maxsize : Nat
  cache : SMap α
  timestamps : SMap Int
deriving Repr

namespace LRUCache

/-- `LRUCache(maxsize)` starts with both dicts empty. -/
def mk0 {α : Type} (maxsize : Nat := DEFAULT_CACHE_SIZE) : LRUCache α :=
  ⟨maxsize, SMap.empty, SMap.empty⟩

/-- `LRUCache.get`: miss on absent key; expiry check
(`time.time() - self.timestamps[key] > CACHE_TIMEOUT`) runs first and pops
the entry; a surviving hit refreshes the timestamp before returning.
The inner `none` branch (value present but timestamp missing) is unreachable
in states where the two dicts are key-synchronized, as they always are; the
Python code would raise `KeyError` there. -/
def get {α : Type} (c : LRUCache α) (key : String) (now : Int) :
    Option α × LRUCache α :=
  match c.cache.lookup key with
  | none => (none, c)
  | some v =>
    match c.timestamps.lookup key with
    | none => (none, c)
    | some ts =>
      if now - ts > CACHE_TIMEOUT then
        (none, { c with cache := c.cache.erase key,
                        timestamps := c.timestamps.erase key })
      else
        (some v, { c with timestamps := c.timestamps.insert key now })

/-- `LRUCache.put`: when `len(self.cache) >= self.maxsize` (checked before
looking at the incoming key) the entry with the minimum timestamp is popped
from both dicts, then the new value and timestamp are stored. The `none`
eviction branch (empty timestamps dict) is unreachable for `maxsize ≥ 1`;
there Python's `min` over an empty sequence would raise `ValueError`. -/
def put {α : Type} (c : LRUCache α) (key : String) (v : α) (now : Int) :
    LRUCache α :=
  if c.cache.size ≥ c.maxsize then
    match c.timestamps.minEntry with
    | some lru =>
        { c with cache := (c.cache.erase lru.1).insert key v,
                 timestamps := (c.timestamps.erase lru.1).insert key now }
    | none =>
        { c with cache := c.cache.insert key v,
                 timestamps := c.timestamps.insert key now }
  else
    { c with cache := c.cache.insert key v,
             timestamps := c.timestamps.insert key now }

/-- `LRUCache.clear`. -/
def clear {α : Type} (c : LRUCache α) : LRUCache α :=
  { c with cache := SMap.empty, timestamps := SMap.empty }

end LRUCache

/-- One recorded cache operation with the wall-clock instant at which it
runs (`time.time()` made explicit). -/
inductive CacheOp (α : Type) where
  | put (key : String) (v : α) (t : Int)
  | get (key : String) (t : Int)
  | clear
deriving Repr

/-- Run a sequence of timed operations against the cache, discarding `get`
results (they do not affect later state beyond the touch/expiry effects). -/
def runOps {α : Type} (c : LRUCache α) : List (CacheOp α) → LRUCache α
  | [] => c
  | CacheOp.put k v t :: ops => runOps (c.put k v t) ops
  | CacheOp.get k t :: ops => runOps (c.get k t).2 ops
  | CacheOp.clear :: ops => runOps c.clear ops

/-- The two dicts of an `LRUCache` always hold exactly the same keys in the
same order; every reachable state satisfies this. -/
def Synced {α : Type} (c : LRUCache α) : Prop :=
  c.cache.keys = c.timestamps.keys

theorem SMap.size_eq_keys_length {α : Type} (m : SMap α) :
    m.size = m.keys.length := by
  unfold SMap.size SMap.keys
  rw [List.length_map]

theorem containsL_iff_mem_keys {α : Type} (l : List (String × α))
    (k : String) : containsL l k = true ↔ k ∈ l.map (·.1) := by
  induction l with
  | nil => simp [containsL]
  | cons e es ih =>
    rw [containsL, List.map_cons, Bool.or_eq_true, List.mem_cons]
    constructor
    · intro hor
      rcases hor with h1 | h1
      · exact Or.inl (of_decide_eq_true h1).symm
      · exact Or.inr (ih.mp h1)
    · intro hmem
      rcases hmem with h1 | h1
      · exact Or.inl (decide_eq_true h1.symm)
      · exact Or.inr (ih.mpr h1)

theorem SMap.contains_eq_keys_mem {α : Type} (m : SMap α) (k : String) :
    m.contains k = true ↔ k ∈ m.keys :=
  containsL_iff_mem_keys m.entries k

theorem synced_get {α : Type} (c : LRUCache α) (key : String) (now : Int)
    (h : Synced c) : Synced (c.get key now).2 := by
  unfold LRUCache.get
  cases hv : c.cache.lookup key with
  | none => exact h
  | some v =>
    cases ht : c.timestamps.lookup key with
    | none => exact h
    | some ts =>
      by_cases he : now - ts > CACHE_TIMEOUT
      · simp only [he, if_true]
        unfold Synced at h ⊢
        simp only
        rw [SMap.keys_erase, SMap.keys_erase, h]
      · simp only [he, if_false]
        unfold Synced at h ⊢
        simp only
        rw [SMap.keys_insert_mem, h]
        rw [SMap.contains_iff_lookup_isSome, ht]
        rfl

theorem keys_insert_congr {α β : Type} (a : SMap α) (b : SMap β)
    (k : String) (v : α) (w : β) (h : a.keys = b.keys) :
    (a.insert k v).keys = (b.insert k w).keys := by
  by_cases hc : a.contains k
  · have hct : b.contains k = true := by
      rw [SMap.contains_eq_keys_mem] at hc ⊢
      rw [← h]; exact hc
    rw [SMap.keys_insert_mem _ _ _ hc, SMap.keys_insert_mem _ _ _ hct, h]
  · have hc' : a.contains k = false := by
      cases hcc : a.contains k with
      | true => exact absurd hcc hc
      | false => rfl
    have hct' : b.contains k = false := by
      cases hcc : b.contains k with
      | false => rfl
      | true =>
        exfalso
        rw [SMap.contains_eq_keys_mem, ← h,
          ← SMap.contains_eq_keys_mem] at hcc
        exact Bool.false_ne_true (hc' ▸ hcc)
    rw [SMap.keys_insert_not_mem _ _ _ hc',
      SMap.keys_insert_not_mem _ _ _ hct', h]

theorem synced_put {α : Type} (c : LRUCache α) (key : String) (v : α)
    (now : Int) (h : Synced c) : Synced (c.put key v now) := by
  unfold LRUCache.put
  by_cases hs : c.cache.size ≥ c.maxsize
  · rw [if_pos hs]
    cases hm : c.timestamps.minEntry with
    | none =>
      exact keys_insert_congr c.cache c.timestamps key v now h
    | some lru =>
      show ((c.cache.erase lru.1).insert key v).keys =
        ((c.timestamps.erase lru.1).insert key now).keys
      apply keys_insert_congr
      rw [SMap.keys_erase, SMap.keys_erase, h]
  · rw [if_neg hs]
    exact keys_insert_congr c.cache c.timestamps key v now h

theorem synced_clear {α : Type} (c : LRUCache α) : Synced c.clear := rfl

theorem synced_runOps {α : Type} (c : LRUCache α) (ops : List (CacheOp α))
    (h : Synced c) : Synced (runOps c ops) := by
  induction ops generalizing c with
  | nil => exact h
  | cons op ops ih =>
    cases op with
    | put k v t => exact ih _ (synced_put c k v t h)
    | get k t => exact ih _ (synced_get c k t h)
    | clear => exact ih _ (synced_clear c)

theorem SMap.minEntry_isSome_of_ne_nil (m : SMap Int)
    (h : m.entries ≠ []) : ∃ e, m.minEntry = some e := by
  unfold SMap.minEntry
  cases hm : m.entries with
  | nil => exact absurd hm h
  | cons x xs => exact ⟨_, rfl⟩

theorem maxsize_put {α : Type} (c : LRUCache α) (key : String) (v : α)
    (now : Int) : (c.put key v now).maxsize = c.maxsize := by
  unfold LRUCache.put
  by_cases hs : c.cache.size ≥ c.maxsize
  · rw [if_pos hs]
    cases c.timestamps.minEntry with
    | none => rfl
    | some lru => rfl
  · rw [if_neg hs]

theorem maxsize_get {α : Type} (c : LRUCache α) (key : String) (now : Int) :
    (c.get key now).2.maxsize = c.maxsize := by
  unfold LRUCache.get
  cases c.cache.lookup key with
  | none => rfl
  | some v =>
    cases c.timestamps.lookup key with
    | none => rfl
    | some ts =>
      by_cases he : now - ts > CACHE_TIMEOUT
      · simp only [he, if_true]
      · simp only [he, if_false]

/-- `put` keeps the entry count within `maxsize` (for any positive capacity;
with `maxsize = 0` the Python code raises `ValueError` instead). -/
theorem size_put_le {α : Type} (c : LRUCache α) (key : String) (v : α)
    (now : Int) (hmax : 1 ≤ c.maxsize) (hsync : Synced c)
    (hsize : c.cache.size ≤ c.maxsize) :
    (c.put key v now).cache.size ≤ c.maxsize := by
  unfold LRUCache.put
  by_cases hs : c.cache.size ≥ c.maxsize
  · rw [if_pos hs]
    have hne : c.timestamps.entries ≠ [] := by
      intro hnil
      have hklen : c.cache.keys.length = c.timestamps.keys.length := by
        rw [hsync]
      rw [← SMap.size_eq_keys_length, ← SMap.size_eq_keys_length] at hklen
      have : c.timestamps.size = 0 := by
        unfold SMap.size; rw [hnil]; rfl
      omega
    obtain ⟨lru, hlru⟩ := SMap.minEntry_isSome_of_ne_nil c.timestamps hne
    rw [hlru]
    have hmem : lru ∈ c.timestamps.entries := SMap.minEntry_mem _ _ hlru
    have hkeymem : lru.1 ∈ c.timestamps.keys := by
      unfold SMap.keys
      exact List.mem_map_of_mem _ hmem
    have hcontains : c.cache.contains lru.1 = true := by
      rw [SMap.contains_eq_keys_mem, hsync]
      exact hkeymem
    have h1 : (c.cache.erase lru.1).size < c.cache.size :=
      SMap.size_erase_lt _ _ hcontains
    have h2 : ((c.cache.erase lru.1).insert key v).size ≤
        (c.cache.erase lru.1).size + 1 := SMap.size_insert_le _ _ _
    show ((c.cache.erase lru.1).insert key v).size ≤ c.maxsize
    omega
  · rw [if_neg hs]
    have h2 : (c.cache.insert key v).size ≤ c.cache.size + 1 :=
      SMap.size_insert_le _ _ _
    show (c.cache.insert key v).size ≤ c.maxsize
    omega

theorem size_get_le {α : Type} (c : LRUCache α) (key : String) (now : Int)
    (hsize : c.cache.size ≤ c.maxsize) :
    (c.get key now).2.cache.size ≤ c.maxsize := by
  unfold LRUCache.get
  cases c.cache.lookup key with
  | none => exact hsize
  | some v =>
    cases c.timestamps.lookup key with
    | none => exact hsize
    | some ts =>
      by_cases he : now - ts > CACHE_TIMEOUT
      · simp only [he, if_true]
        have := SMap.size_erase_le c.cache key
        omega
      · simp only [he, if_false]
        exact hsize

/-- Invariant carried through every operation sequence: the two dicts agree
on keys and the entry count stays within capacity. -/
theorem runOps_invariant {α : Type} (c : LRUCache α) (ops : List (CacheOp α))
    (hmax : 1 ≤ c.maxsize) (hsync : Synced c)
    (hsize : c.cache.size ≤ c.maxsize) :
    Synced (runOps c ops) ∧ (runOps c ops).cache.size ≤ (runOps c ops).maxsize ∧
      (runOps c ops).maxsize = c.maxsize := by
  induction ops generalizing c with
  | nil => exact ⟨hsync, hsize, rfl⟩
  | cons op ops ih =>
    cases op with
    | put k v t =>
      have hmax' : 1 ≤ (c.put k v t).maxsize := by rw [maxsize_put]; exact hmax
      have h := ih (c.put k v t) hmax' (synced_put c k v t hsync)
        (by rw [maxsize_put]; exact size_put_le c k v t hmax hsync hsize)
      show Synced (runOps (c.put k v t) ops) ∧
        (runOps (c.put k v t) ops).cache.size ≤
          (runOps (c.put k v t) ops).maxsize ∧
        (runOps (c.put k v t) ops).maxsize = c.maxsize
      refine ⟨h.1, h.2.1, ?_⟩
      rw [h.2.2, maxsize_put]
    | get k t =>
      have hmax' : 1 ≤ (c.get k t).2.maxsize := by rw [maxsize_get]; exact hmax
      have h := ih (c.get k t).2 hmax' (synced_get c k t hsync)
        (by rw [maxsize_get]; exact size_get_le c k t hsize)
      show Synced (runOps (c.get k t).2 ops) ∧
        (runOps (c.get k t).2 ops).cache.size ≤
          (runOps (c.get k t).2 ops).maxsize ∧
        (runOps (c.get k t).2 ops).maxsize = c.maxsize
      refine ⟨h.1, h.2.1, ?_⟩
      rw [h.2.2, maxsize_get]
    | clear =>
      have h := ih c.clear hmax (synced_clear c) (by
        show (0 : Nat) ≤ c.maxsize
        omega)
      exact ⟨h.1, h.2.1, h.2.2⟩

theorem lookupL_none_of_contains_false {α : Type} (l : List (String × α))
    (k : String) (h : containsL l k = false) : lookupL l k = none := by
  cases hl : lookupL l k with
  | none => rfl
  | some v =>
    exfalso
    have : containsL l k = true := (containsL_iff_lookupL l k).mpr (by
      rw [hl]; rfl)
    exact Bool.false_ne_true (h ▸ this)

theorem lookupL_of_mem_nodup {α : Type} (l : List (String × α))
    (k : String) (v : α) (hmem : (k, v) ∈ l) (hnd : (l.map (·.1)).Nodup) :
    lookupL l k = some v := by
  induction l with
  | nil => simp at hmem
  | cons e es ih =>
    rcases List.mem_cons.mp hmem with h1 | h1
    · rw [← h1, lookupL, if_pos rfl]
    · rw [List.map_cons, List.nodup_cons] at hnd
      have hke : ¬ (e.1 = k) := by
        intro hk
        apply hnd.1
        rw [hk]
        exact List.mem_map_of_mem _ h1
      rw [lookupL, if_neg hke]
      exact ih h1 hnd.2

theorem eraseL_of_contains_false {α : Type} (l : List (String × α))
    (k : String) (h : containsL l k = false) : eraseL l k = l := by
  unfold eraseL
  induction l with
  | nil => rfl
  | cons e es ih =>
    rw [containsL] at h
    by_cases he : e.1 = k
    · simp [he] at h
    · have h' : containsL es k = false := by
        cases hc : containsL es k with
        | true => rw [hc] at h; simp [he] at h
        | false => rfl
      rw [List.filter_cons]
      have hdec : (decide ¬ (e.1 = k)) = true := by simp [he]
      rw [hdec, if_pos rfl, ih h']

theorem eraseL_cons_self_fresh {α : Type} (e : String × α)
    (l : List (String × α)) (h : containsL l e.1 = false) :
    eraseL (e :: l) e.1 = l := by
  unfold eraseL
  rw [List.filter_cons]
  have hdec : (decide ¬ (e.1 = e.1)) = false := by simp
  rw [hdec]
  simp only [Bool.false_eq_true, if_false]
  exact eraseL_of_contains_false l e.1 h

theorem SMap.entries_insert_fresh {α : Type} (m : SMap α) (k : String)
    (v : α) (h : m.contains k = false) :
    (m.insert k v).entries = m.entries ++ [(k, v)] := by
  unfold SMap.insert insertL
  have h' : containsL m.entries k = false := h
  rw [h']
  simp

/-- The state of `put` when the cache is below capacity. -/
theorem put_not_full {α : Type} (c : LRUCache α) (key : String) (v : α)
    (now : Int) (hs : ¬ c.cache.size ≥ c.maxsize) :
    c.put key v now = { c with cache := c.cache.insert key v,
                               timestamps := c.timestamps.insert key now } := by
  unfold LRUCache.put
  rw [if_neg hs]

/-- The state of `put` when the cache is at (or beyond) capacity and the
minimum-timestamp entry is `lru`. -/
theorem put_full {α : Type} (c : LRUCache α) (key : String) (v : α)
    (now : Int) (hs : c.cache.size ≥ c.maxsize) (lru : String × Int)
    (hlru : c.timestamps.minEntry = some lru) :
    c.put key v now =
      { c with cache := (c.cache.erase lru.1).insert key v,
               timestamps := (c.timestamps.erase lru.1).insert key now } := by
  unfold LRUCache.put
  rw [if_pos hs, hlru]

/-- A sequence of `put`s (key, value, timestamp). -/
def putList {α : Type} (c : LRUCache α) : List (String × α × Int) → LRUCache α
  | [] => c
  | e :: es => putList (c.put e.1 e.2.1 e.2.2) es

/-- Distinct fresh keys `put` below capacity accumulate in insertion order
in both dicts, with no eviction. -/
theorem putList_fresh {α : Type} (L : List (String × α × Int)) :
    ∀ c : LRUCache α, c.cache.size + L.length ≤ c.maxsize →
    (∀ e ∈ L, containsL c.cache.entries e.1 = false) →
    (L.map (·.1)).Nodup → Synced c →
    (putList c L).cache.entries =
        c.cache.entries ++ L.map (fun e => (e.1, e.2.1)) ∧
    (putList c L).timestamps.entries =
        c.timestamps.entries ++ L.map (fun e => (e.1, e.2.2)) ∧
    (putList c L).maxsize = c.maxsize := by
  induction L with
  | nil =>
    intro c _ _ _ _
    simp [putList]
  | cons e es ih =>
    intro c hsize hfresh hnd hsync
    have hs : ¬ c.cache.size ≥ c.maxsize := by
      have hlen : (e :: es).length = es.length + 1 := rfl
      rw [hlen] at hsize
      omega
    have hput := put_not_full c e.1 e.2.1 e.2.2 hs
    have hcachefresh : c.cache.contains e.1 = false :=
      hfresh e (List.mem_cons_self _ _)
    have htsfresh : c.timestamps.contains e.1 = false := by
      cases hcc : c.timestamps.contains e.1 with
      | false => rfl
      | true =>
        exfalso
        rw [SMap.contains_eq_keys_mem, ← hsync,
          ← SMap.contains_eq_keys_mem] at hcc
        exact Bool.false_ne_true (hcachefresh ▸ hcc)
    have hce : (c.cache.insert e.1 e.2.1).entries =
        c.cache.entries ++ [(e.1, e.2.1)] :=
      SMap.entries_insert_fresh _ _ _ hcachefresh
    have hte : (c.timestamps.insert e.1 e.2.2).entries =
        c.timestamps.entries ++ [(e.1, e.2.2)] :=
      SMap.entries_insert_fresh _ _ _ htsfresh
    have hstep : putList c (e :: es) = putList (c.put e.1 e.2.1 e.2.2) es := rfl
    rw [hstep, hput]
    set c' : LRUCache α :=
      { c with cache := c.cache.insert e.1 e.2.1,
               timestamps := c.timestamps.insert e.1 e.2.2 } with hc'
    rw [List.map_cons, List.nodup_cons] at hnd
    have hihsize : c'.cache.size + es.length ≤ c'.maxsize := by
      have : c'.cache.size ≤ c.cache.size + 1 := SMap.size_insert_le _ _ _
      have hmx : c'.maxsize = c.maxsize := rfl
      have hlen : (e :: es).length = es.length + 1 := rfl
      rw [hlen] at hsize
      rw [hmx]
      have hsz : c'.cache.size = c.cache.size + 1 := by
        show (c.cache.insert e.1 e.2.1).size = c.cache.size + 1
        unfold SMap.size
        rw [hce, List.length_append]
        rfl
      omega
    have hihfresh : ∀ x ∈ es, containsL c'.cache.entries x.1 = false := by
      intro x hx
      have hxfresh : containsL c.cache.entries x.1 = false :=
        hfresh x (List.mem_cons_of_mem _ hx)
      have hxne : ¬ (x.1 = e.1) := by
        intro hk
        apply hnd.1
        rw [← hk]
        exact List.mem_map_of_mem _ hx
      show containsL (c.cache.insert e.1 e.2.1).entries x.1 = false
      rw [hce]
      cases hcc : containsL (c.cache.entries ++ [(e.1, e.2.1)]) x.1 with
      | false => rfl
      | true =>
        exfalso
        rw [containsL_iff_mem_keys, List.map_append] at hcc
        rcases List.mem_append.mp hcc with h1 | h1
        · rw [← containsL_iff_mem_keys] at h1
          exact Bool.false_ne_true (hxfresh ▸ h1)
        · simp at h1
          exact hxne h1
    have hihsync : Synced c' := by
      show (c.cache.insert e.1 e.2.1).keys = (c.timestamps.insert e.1 e.2.2).keys
      exact keys_insert_congr _ _ _ _ _ hsync
    have hres := ih c' hihsize hihfresh hnd.2 hihsync
    refine ⟨?_, ?_, ?_⟩
    · rw [hres.1]
      show (c.cache.insert e.1 e.2.1).entries ++ _ = _
      rw [hce, List.map_cons, List.append_assoc]
      try rfl
    · rw [hres.2.1]
      show (c.timestamps.insert e.1 e.2.2).entries ++ _ = _
      rw [hte, List.map_cons, List.append_assoc]
      try rfl
    · rw [hres.2.2]

/-! ## `utils/performance.py` — `PerformanceMonitor`

`track(func_name)` wraps a unit of work in `try/finally`: the wrapped call's
outcome (value or exception) is exactly the wrapped function's outcome, and
`_update_metrics` runs exactly once in the `finally` block, whether the call
succeeded or raised. The wall-clock duration `time.time() - start_time` is an
opaque nonnegative quantity here, passed as an explicit argument. -/

/-- A Python float that may be `float('inf')` (used as the initial
`min_time` and as an interpretation-band upper bound). -/
inductive FloatV where
  | fin (q : ℚ)
  | inf
deriving Repr, DecidableEq

/-- `a <= b` on `FloatV` (`inf` is greater than everything finite). -/
def FloatV.le : FloatV → FloatV → Bool
  | .fin a, .fin b => a ≤ b
  | _, .inf => true
  | .inf, .fin _ => false

/-- Python `min` on possibly-infinite floats. -/
def FloatV.minv : FloatV → FloatV → FloatV
  | .inf, b => b
  | a, .inf => a
  | .fin a, .fin b => .fin (min a b)

/-- One per-operation-name aggregate of `self.metrics[func_name]`. -/
structure OpStats where
  count : ℚ
  total_time : ℚ
  min_time : FloatV
  max_time : ℚ
  avg_time : ℚ
deriving Repr, DecidableEq

/-- The fresh record created when a name is first seen:
`{'count': 0, 'total_time': 0, 'min_time': float('inf'), 'max_time': 0,
'avg_time': 0}`. -/
def OpStats.fresh : OpStats :=
  { count := 0, total_time := 0, min_time := FloatV.inf, max_time := 0,
    avg_time := 0 }

/-- `PerformanceMonitor._update_metrics(func_name, duration)`: initialize the
record if absent, then `count += 1`, `total_time += duration`,
`min_time = min(min_time, duration)`, `max_time = max(max_time, duration)`,
`avg_time = total_time / count` (with the already-updated totals). -/
def updateMetrics (m : SMap OpStats) (func_name : String) (duration : ℚ) :
    SMap OpStats :=
  match m.lookup func_name with
  | none =>
      m.insert func_name
        { count := 1, total_time := duration,
          min_time := FloatV.minv OpStats.fresh.min_time (FloatV.fin duration),
          max_time := max OpStats.fresh.max_time duration,
          avg_time := duration / 1 }
  | some s =>
      m.insert func_name
        { count := s.count + 1, total_time := s.total_time + duration,
          min_time := FloatV.minv s.min_time (FloatV.fin duration),
          max_time := max s.max_time duration,
          avg_time := (s.total_time + duration) / (s.count + 1) }

/-- `PerformanceMonitor.track(func_name)` applied to a unit of work: run the
function (its outcome, success or exception, is untouched), then in the
`finally` block record the measured duration exactly once; an exception
propagates after the `finally` block. -/
def track {α β : Type} (m : SMap OpStats) (func_name : String)
    (func : α → Except String β) (duration : ℚ) (x : α) :
    Except String β × SMap OpStats :=
  (func x, updateMetrics m func_name duration)

/-! ## `indicators/interpretations.py` -/

/-- `ScoreRange`: a band `(min_val, max_val, description)`. The bounds are
Python floats, possibly `float('inf')`. -/
structure ScoreRange where
  min_val : FloatV
  max_val : FloatV
  description : String
deriving Repr, DecidableEq

/-- `ScoreRange.contains`: `self.min_val <= score <= self.max_val` — a
closed interval on both ends. -/
def ScoreRange.containsScore (r : ScoreRange) (score : ℚ) : Bool :=
  FloatV.le r.min_val (FloatV.fin score) &&
    FloatV.le (FloatV.fin score) r.max_val

/-- `MetricInterpretation`: name, direction, description and the band list
in the order written in the `INTERPRETATIONS` table. -/
structure MetricInterpretation where
  name : String
  lower_better : Bool
  description : String
  ranges : List ScoreRange
deriving Repr, DecidableEq

/-- `MetricInterpretation.interpret`: walk `self.ranges` in list order and
return the first band whose closed interval contains the score; fall back to
the sentinel `"Score out of expected ranges"`. -/
def MetricInterpretation.interpret (mi : MetricInterpretation) (score : ℚ) :
    String :=
  match mi.ranges.find? (fun r => r.containsScore score) with
  | some r => r.description
  | none => "Score out of expected ranges"

/-- The `'brisque'` entry of `INTERPRETATIONS`
(`indicators/interpretations.py`), bands listed in ascending score order. -/
def brisqueInterpretation : MetricInterpretation :=
  { name := "BRISQUE", lower_better := true,
    description := "Blind/Referenceless Image Spatial Quality Evaluator",
    ranges :=
      [ ⟨FloatV.fin 0, FloatV.fin 20, "Excellent quality (highly natural images)"⟩,
        ⟨FloatV.fin 20, FloatV.fin 40, "Good quality (natural images)"⟩,
        ⟨FloatV.fin 40, FloatV.fin 60, "Fair quality (mildly distorted images)"⟩,
        ⟨FloatV.fin 60, FloatV.fin 80, "Poor quality (distorted images)"⟩,
        ⟨FloatV.fin 80, FloatV.fin 100, "Very poor quality (heavily distorted images)"⟩ ] }

/-- The `'psnr'` entry of `INTERPRETATIONS`, bands listed in descending
score order with an infinite top bound. -/
def psnrInterpretation : MetricInterpretation :=
  { name := "PSNR", lower_better := false,
    description := "Peak Signal-to-Noise Ratio measures image fidelity",
    ranges :=
      [ ⟨FloatV.fin 40, FloatV.inf, "Excellent quality (near perfect)"⟩,
        ⟨FloatV.fin 30, FloatV.fin 40, "Good quality (minor imperfections)"⟩,
        ⟨FloatV.fin 20, FloatV.fin 30, "Fair quality (noticeable degradation)"⟩,
        ⟨FloatV.fin 10, FloatV.fin 20, "Poor quality (significant degradation)"⟩,
        ⟨FloatV.fin 0, FloatV.fin 10, "Very poor quality (severe degradation)"⟩ ] }

/-- The claim's reading of a band: the half-open interval `[start, end)`.
This definition follows the specification's words, not the code, and exists
only to compare the two: the code's `ScoreRange.contains` uses a closed
interval. -/
def ScoreRange.containsHalfOpen (r : ScoreRange) (score : ℚ) : Bool :=
  FloatV.le r.min_val (FloatV.fin score) &&
    !(FloatV.le r.max_val (FloatV.fin score))

/-- The claim's interpretation rule, following the specification's words:
first band (in the listed order, which for `brisque` is ascending) whose
half-open interval `[start, end)` contains the score. -/
def interpretHalfOpenFirst (mi : MetricInterpretation) (score : ℚ) :
    Option String :=
  (mi.ranges.find? (fun r => r.containsHalfOpen score)).map (·.description)

/-! ### `server/mcp_server.py` — `get_metric_interpretation` tool branch -/

/-- One entry of the `METRIC_INTERPRETATIONS` table in `core/constants.py`:
`{"better": ..., "ranges": {(lo, hi): description, ...}}`, the dict of
ranges kept in insertion order. -/
structure InterpEntry where
  better : String
  ranges : List ((FloatV × FloatV) × String)
deriving Repr, DecidableEq

/-- The `get_metric_interpretation` response: `score` and `interpretation`
are present only on the matched-range path. -/
structure InterpResponse where
  metric : String
  score : Option ℚ
  interpretation : Option String
  better_direction : String
  ranges : List ((FloatV × FloatV) × String)
deriving Repr, DecidableEq

/-- The `get_metric_interpretation` branch of `IQAServer.handle_tool_call`:
unknown metric raises `InvalidInputError`; when a score is supplied, the
first range tuple with `range_tuple[0] <= score <= range_tuple[1]` yields a
response carrying `score` and `interpretation`; otherwise (no score, or no
matching range) the response has neither field. -/
def get_metric_interpretation (table : SMap InterpEntry)
    (metric_name : String) (score : Option ℚ) :
    Except String InterpResponse :=
  match table.lookup metric_name with
  | none =>
      Except.error ("No interpretation available for metric: " ++ metric_name)
  | some interp =>
    match score with
    | some s =>
      match interp.ranges.find? (fun rt =>
          FloatV.le rt.1.1 (FloatV.fin s) && FloatV.le (FloatV.fin s) rt.1.2) with
      | some rt =>
          Except.ok { metric := metric_name, score := some s,
                      interpretation := some rt.2,
                      better_direction := interp.better,
                      ranges := interp.ranges }
      | none =>
          Except.ok { metric := metric_name, score := none,
                      interpretation := none,
                      better_direction := interp.better,
                      ranges := interp.ranges }
    | none =>
        Except.ok { metric := metric_name, score := none,
                    interpretation := none,
                    better_direction := interp.better,
                    ranges := interp.ranges }

/-! ## `server/handlers.py` — `handle_assess_image_quality`

The handler validates the image path (and the reference path when truthy),
defaults the metric list from the catalog when it is absent, partitions the
requested names into full-reference and no-reference groups by membership in
`pyiqa.get_fr_metrics()` / `pyiqa.get_nr_metrics()`, raises
`InvalidInputError` when FR metrics were requested with no reference, and
then runs two cache-or-compute loops with per-metric exception capture. -/

/-- The external collaborators of the handler: `validate_image_path`
(returns `none` for a valid path, `some errorMessage` otherwise), the two
pyiqa catalog lists, and the scoring provider
(`pyiqa.create_metric(...)` followed by the metric call, merged into one
fallible function of metric name, image path and optional reference). -/
structure Env where
  validImage : String → Option String
  frMetrics : List String
  nrMetrics : List String
  provider : String → String → Option String → Except String ℚ

/-- Python truthiness of the optional `reference_path` string: `None` and
`""` are falsy. -/
def refTruthy : Option String → Bool
  | none => false
  | some s => !(s == "")

/-- NR cache key `f"{metric_name}:{image_path}"`. -/
def cacheKeyNR (metric_name image_path : String) : String :=
  metric_name ++ ":" ++ image_path

/-- FR cache key `f"{metric_name}:{image_path}:{reference_path}"`. -/
def cacheKeyFR (metric_name image_path reference_path : String) : String :=
  metric_name ++ ":" ++ image_path ++ ":" ++ reference_path

/-- Response metadata (`str(image_path)`, `str(reference_path) if
reference_path else None`, and the two key lists). -/
structure Metadata where
  image_path : String
  reference_path : Option String
  metrics_computed : List String
  failed_metrics : List String
deriving Repr, DecidableEq

/-- The single-image response: `scores`, `errors` and `metadata`. -/
structure Response where
  scores : SMap ℚ
  errors : SMap String
  metadata : Metadata
deriving Repr, DecidableEq

/-- One cache-or-compute loop of the handler (used once for NR metrics and
once for FR metrics, which differ only in the cache-key shape and in how the
provider is called): try the cache first, on a hit record the cached score
and continue; on a miss invoke the provider, recording the score (and
caching it) on success or the exception text under the metric's name on
failure. -/
def runMetricLoop (keyOf : String → String)
    (call : String → Except String ℚ) (now : Int) :
    List String → SMap ℚ × SMap String × LRUCache ℚ →
      SMap ℚ × SMap String × LRUCache ℚ
  | [], acc => acc
  | metric_name :: rest, (results, errors, cache) =>
    match (cache.get (keyOf metric_name) now) with
    | (some cached_result, cache') =>
        runMetricLoop keyOf call now rest
          (results.insert metric_name cached_result, errors, cache')
    | (none, cache') =>
      match call metric_name with
      | Except.ok score =>
          runMetricLoop keyOf call now rest
            (results.insert metric_name score, errors,
              cache'.put (keyOf metric_name) score now)
      | Except.error e =>
          runMetricLoop keyOf call now rest
            (results, errors.insert metric_name e, cache')

/-- The metric list actually used: `metrics` when given, otherwise
`pyiqa.get_fr_metrics()` when a (truthy) reference was supplied and
`pyiqa.get_nr_metrics()` when not (lines 50–54). -/
def effectiveMetrics (env : Env) (metrics : Option (List String))
    (reference_path : Option String) : List String :=
  match metrics with
  | none => if refTruthy reference_path then env.frMetrics else env.nrMetrics
  | some ms => ms

/-- `fr_metrics = [m for m in metrics if m in pyiqa.get_fr_metrics()]`. -/
def frOf (env : Env) (metricsList : List String) : List String :=
  metricsList.filter (fun m => env.frMetrics.contains m)

/-- `nr_metrics = [m for m in metrics if m in pyiqa.get_nr_metrics()]`. -/
def nrOf (env : Env) (metricsList : List String) : List String :=
  metricsList.filter (fun m => env.nrMetrics.contains m)

/-- The final `return` of the handler (lines 103–112): wrap the two result
maps and the metadata block around the loop state. -/
def assembleResponse (image_path : String) (reference_path : Option String)
    (acc : SMap ℚ × SMap String × LRUCache ℚ) : Response × LRUCache ℚ :=
  ({ scores := acc.1, errors := acc.2.1,
     metadata :=
       { image_path := image_path,
         reference_path :=
           if refTruthy reference_path then
             some (reference_path.getD "") else none,
         metrics_computed := acc.1.keys,
         failed_metrics := acc.2.1.keys } }, acc.2.2)

/-- The post-validation body of the handler: the NR loop, then the FR loop,
then the response assembly (lines 56–112). -/
def assessResult (env : Env) (cache : LRUCache ℚ) (now : Int)
    (image_path : String) (metricsList : List String)
    (reference_path : Option String) : Response × LRUCache ℚ :=
  assembleResponse image_path reference_path
    (runMetricLoop (fun m => cacheKeyFR m image_path (reference_path.getD ""))
      (fun m => env.provider m image_path reference_path) now
      (frOf env metricsList)
      (runMetricLoop (fun m => cacheKeyNR m image_path)
        (fun m => env.provider m image_path none) now (nrOf env metricsList)
        (SMap.empty, SMap.empty, cache)))

/-- `handle_assess_image_quality(image_path, metrics, reference_path)`,
threading the process-global `cache` explicitly and using one clock instant
`now` for the whole request. Raised `InvalidInputError`s are `.error`. -/
def handle_assess_image_quality (env : Env) (cache : LRUCache ℚ) (now : Int)
    (image_path : String) (metrics : Option (List String))
    (reference_path : Option String) :
    Except String (Response × LRUCache ℚ) :=
  match env.validImage image_path with
  | some err => Except.error ("Invalid image path: " ++ err)
  | none =>
  match (if refTruthy reference_path then
          env.validImage (reference_path.getD "") else none) with
  | some err => Except.error ("Invalid reference image path: " ++ err)
  | none =>
  let metricsList := effectiveMetrics env metrics reference_path
  if ¬ (frOf env metricsList).isEmpty ∧ ¬ refTruthy reference_path then
    Except.error ("Reference image required for metrics: [" ++
      String.intercalate ", " (frOf env metricsList) ++ "]")
  else
    Except.ok (assessResult env cache now image_path metricsList reference_path)

/-! ## `server/handlers.py` — `handle_batch_assessment` (first definition,
lines 114–164)

Checks `len(reference_paths) == len(image_paths)` when the reference list is
truthy, then processes every index through `handle_assess_image_quality`; a
per-image exception is converted into a synthetic slot with a single
`"assessment_error"` entry. `asyncio.gather` keeps results in input order;
the concurrent interleaving of cache accesses is modelled as sequential
in-index-order execution. -/

/-- The synthetic per-image failure slot of the first
`handle_batch_assessment`. -/
def syntheticSlot (image_path : String) (reference_path : Option String)
    (e : String) : Response :=
  { scores := SMap.empty,
    errors := SMap.empty.insert "assessment_error" e,
    metadata :=
      { image_path := image_path,
        reference_path :=
          if refTruthy reference_path then
            some (reference_path.getD "") else none,
        metrics_computed := [],
        failed_metrics := ["all"] } }

/-- The per-index loop of the first `handle_batch_assessment`; `refs` is
`reference_paths` when that list is truthy (already length-checked), `none`
otherwise, peeled in step with the image list. -/
def batchGo (env : Env) (now : Int) (metrics : Option (List String)) :
    List String → Option (List String) → LRUCache ℚ →
      List Response × LRUCache ℚ
  | [], _, cache => ([], cache)
  | image_path :: rest, refs, cache =>
    match handle_assess_image_quality env cache now image_path metrics
        (refs.bind (·.head?)) with
    | Except.ok (resp, cache') =>
      match batchGo env now metrics rest (refs.map (·.tail)) cache' with
      | (items, cacheF) => (resp :: items, cacheF)
    | Except.error e =>
      match batchGo env now metrics rest (refs.map (·.tail)) cache with
      | (items, cacheF) =>
          (syntheticSlot image_path (refs.bind (·.head?)) e :: items, cacheF)

/-- Python truthiness of the optional `reference_paths` list (`None` and
`[]` are falsy). -/
def rpTruthyOf : Option (List String) → Bool
  | some l => !l.isEmpty
  | none => false

/-- First definition of `handle_batch_assessment` (lines 114–164): the one
whose signature matches every caller in the repository. -/
def handle_batch_assessment (env : Env) (cache : LRUCache ℚ) (now : Int)
    (image_paths : List String) (metrics : Option (List String))
    (reference_paths : Option (List String)) :
    Except String (List Response × LRUCache ℚ) :=
  let rpTruthy := rpTruthyOf reference_paths
  if rpTruthy = true ∧ (reference_paths.getD []).length ≠ image_paths.length then
    Except.error ("Number of reference images (" ++
      toString (reference_paths.getD []).length ++
      ") must match number of test images (" ++
      toString image_paths.length ++ ")")
  else
    Except.ok (batchGo env now metrics image_paths
      (if rpTruthy = true then reference_paths else none) cache)

/-- A slot of the second `handle_batch_assessment` (lines 212–243): on
success `{"image_path": ..., "success": True, **result}`, on failure
`{"image_path": ..., "success": False, "error": str(e)}` — the failure
slot has no `errors` map and no metadata at all. -/
inductive BatchItem2 where
  | ok (image_path : String) (result : Response)
  | fail (image_path : String) (error : String)
deriving Repr, DecidableEq

/-- The `errors` map carried by a slot of the second
`handle_batch_assessment`, when it has one. -/
def BatchItem2.errorsMap : BatchItem2 → Option (SMap String)
  | .ok _ result => some result.errors
  | .fail _ _ => none

/-- Second definition of `handle_batch_assessment` (lines 212–243). Under
Python module semantics this later definition shadows the first one, so it
is what `from .handlers import handle_batch_assessment` resolves to. Its
signature `(image_paths, metrics, indicators)` does not even accept the
`reference_paths` keyword used by `mcp_server.py` and the tests; its
per-image call `handle_assess_image_quality(image_path, metrics,
indicators)` (which passes the indicators dict in the reference-path
position) is abstracted here as the fallible unit `assessUnit`. -/
def handle_batch_assessment_redef (assessUnit : String → Except String Response)
    (image_paths : List String) : List BatchItem2 :=
  image_paths.map (fun image_path =>
    match assessUnit image_path with
    | Except.ok result => BatchItem2.ok image_path result
    | Except.error e => BatchItem2.fail image_path e)

/-- A small concrete environment for ground instances: every path is a valid
image, the catalog lists mirror the shapes of `pyiqa.get_fr_metrics()` and
`pyiqa.get_nr_metrics()`, and the provider always scores 1. -/
def envDemo : Env :=
  { validImage := fun _ => none,
    frMetrics := ["psnr", "ssim", "lpips"],
    nrMetrics := ["brisque", "niqe"],
    provider := fun _ _ _ => Except.ok 1 }

/-- Like `envDemo`, but the provider fails on `brisque` with message
`"boom"` and succeeds with score 1 on everything else. -/
def envFail : Env :=
  { validImage := fun _ => none,
    frMetrics := ["psnr", "ssim", "lpips"],
    nrMetrics := ["brisque", "niqe"],
    provider := fun m _ _ =>
      if m == "brisque" then Except.error "boom" else Except.ok 1 }

/-- An environment whose image validator rejects exactly `"corrupt.png"`. -/
def envCorrupt : Env :=
  { validImage := fun p =>
      if p == "corrupt.png" then some ("Invalid image file: bad header")
      else none,
    frMetrics := ["psnr", "ssim", "lpips"],
    nrMetrics := ["brisque", "niqe"],
    provider := fun _ _ _ => Except.ok 1 }

/-- Pairwise key-distinctness of the cache keys generated by one request:
NR keys are injective in the metric name, FR keys likewise, and no NR key
collides with an FR key. (For real metric names — which contain no `':'` —
this always holds; it is discharged by `decide` on concrete instances.) -/
def KeysOK (image_path refStr : String) (nrL frL : List String) : Prop :=
  (∀ a ∈ nrL, ∀ b ∈ nrL, cacheKeyNR a image_path = cacheKeyNR b image_path →
    a = b) ∧
  (∀ a ∈ frL, ∀ b ∈ frL,
    cacheKeyFR a image_path refStr = cacheKeyFR b image_path refStr → a = b) ∧
  (∀ a ∈ nrL, ∀ b ∈ frL, cacheKeyNR a image_path ≠ cacheKeyFR b image_path refStr)

/-! ## Helper lemmas about the cache's effect on single bindings -/

theorem get_cache_cases {α : Type} (c : LRUCache α) (k : String) (now : Int) :
    (c.get k now).2.cache = c.cache ∨ (c.get k now).2.cache = c.cache.erase k := by
  unfold LRUCache.get
  cases hv : c.cache.lookup k with
  | none => left; rfl
  | some v =>
    cases ht : c.timestamps.lookup k with
    | none => left; rfl
    | some ts =>
      dsimp only
      by_cases he : now - ts > CACHE_TIMEOUT
      · rw [if_pos he]; right; rfl
      · rw [if_neg he]; left; rfl

/-- `get` never adds or rewrites a cache value: any binding is either
unchanged or deleted. -/
theorem get_binding_pres {α : Type} (c : LRUCache α) (k : String) (now : Int)
    (K : String) :
    (c.get k now).2.cache.lookup K = c.cache.lookup K ∨
    (c.get k now).2.cache.lookup K = none := by
  rcases get_cache_cases c k now with h | h
  · left; rw [h]
  · by_cases hK : K = k
    · right; rw [h, hK]; exact SMap.lookup_erase_self _ _
    · left; rw [h]; exact SMap.lookup_erase_ne _ _ _ hK

theorem get_none_pres {α : Type} (c : LRUCache α) (k : String) (now : Int)
    (K : String) (hn : c.cache.lookup K = none) :
    (c.get k now).2.cache.lookup K = none := by
  rcases get_binding_pres c k now K with h | h
  · rw [h, hn]
  · exact h

/-- A successful `get` returns the stored value. -/
theorem get_some_eq {α : Type} (c : LRUCache α) (k : String) (now : Int)
    (v : α) (h : (c.get k now).1 = some v) : c.cache.lookup k = some v := by
  unfold LRUCache.get at h
  cases hv : c.cache.lookup k with
  | none => rw [hv] at h; exact absurd h (by simp)
  | some w =>
    rw [hv] at h
    cases ht : c.timestamps.lookup k with
    | none => rw [ht] at h; exact absurd h (by simp)
    | some ts =>
      rw [ht] at h
      dsimp only at h
      by_cases he : now - ts > CACHE_TIMEOUT
      · rw [if_pos he] at h; exact absurd h (by simp)
      · rw [if_neg he] at h
        simp only [Option.some_inj] at h
        rw [h]

theorem put_lookup_self {α : Type} (c : LRUCache α) (k : String) (v : α)
    (now : Int) : (c.put k v now).cache.lookup k = some v := by
  unfold LRUCache.put
  by_cases hs : c.cache.size ≥ c.maxsize
  · rw [if_pos hs]
    cases c.timestamps.minEntry with
    | none => exact SMap.lookup_insert_self _ _ _
    | some lru => exact SMap.lookup_insert_self _ _ _
  · rw [if_neg hs]
    exact SMap.lookup_insert_self _ _ _

/-- `put k` leaves any other binding either unchanged or (via the LRU
eviction) deleted. -/
theorem put_binding_pres {α : Type} (c : LRUCache α) (k : String) (v : α)
    (now : Int) (K : String) (hK : K ≠ k) :
    (c.put k v now).cache.lookup K = c.cache.lookup K ∨
    (c.put k v now).cache.lookup K = none := by
  unfold LRUCache.put
  by_cases hs : c.cache.size ≥ c.maxsize
  · rw [if_pos hs]
    cases c.timestamps.minEntry with
    | none =>
      left
      exact SMap.lookup_insert_ne _ _ _ _ hK
    | some lru =>
      by_cases hKl : K = lru.1
      · right
        show ((c.cache.erase lru.1).insert k v).lookup K = none
        rw [SMap.lookup_insert_ne _ _ _ _ hK, hKl]
        exact SMap.lookup_erase_self _ _
      · left
        show ((c.cache.erase lru.1).insert k v).lookup K = c.cache.lookup K
        rw [SMap.lookup_insert_ne _ _ _ _ hK]
        exact SMap.lookup_erase_ne _ _ _ hKl
  · rw [if_neg hs]
    left
    exact SMap.lookup_insert_ne _ _ _ _ hK

theorem put_none_pres {α : Type} (c : LRUCache α) (k : String) (v : α)
    (now : Int) (K : String) (hK : K ≠ k)
    (hn : c.cache.lookup K = none) :
    (c.put k v now).cache.lookup K = none := by
  rcases put_binding_pres c k v now K hK with h | h
  · rw [h, hn]
  · exact h

theorem get_of_lookup_none {α : Type} (c : LRUCache α) (k : String)
    (now : Int) (hn : c.cache.lookup k = none) : c.get k now = (none, c) := by
  unfold LRUCache.get
  rw [hn]

/-! ## Helper lemmas about `runMetricLoop` -/

theorem runMetricLoop_cons (keyOf : String → String)
    (call : String → Except String ℚ) (now : Int) (h : String)
    (t : List String) (res : SMap ℚ) (errs : SMap String) (c : LRUCache ℚ) :
    runMetricLoop keyOf call now (h :: t) (res, errs, c) =
      match c.get (keyOf h) now with
      | (some v, c2) =>
          runMetricLoop keyOf call now t (res.insert h v, errs, c2)
      | (none, c2) =>
        match call h with
        | Except.ok s =>
            runMetricLoop keyOf call now t
              (res.insert h s, errs, c2.put (keyOf h) s now)
        | Except.error e =>
            runMetricLoop keyOf call now t (res, errs.insert h e, c2) := rfl

/-- A metric name outside the processed list keeps its entries in the two
result maps untouched. -/
theorem runMetricLoop_frame (keyOf : String → String)
    (call : String → Except String ℚ) (now : Int) (m : String) :
    ∀ (L : List String) (res : SMap ℚ) (errs : SMap String) (c : LRUCache ℚ),
    m ∉ L →
    (runMetricLoop keyOf call now L (res, errs, c)).1.lookup m = res.lookup m ∧
    (runMetricLoop keyOf call now L (res, errs, c)).2.1.lookup m =
      errs.lookup m := by
  intro L
  induction L with
  | nil => intro res errs c _; exact ⟨rfl, rfl⟩
  | cons h t ih =>
    intro res errs c hm
    have hmt : m ∉ t := fun hx => hm (List.mem_cons_of_mem _ hx)
    have hhm : m ≠ h := fun hx => hm (by rw [hx]; exact List.mem_cons_self h t)
    rw [runMetricLoop_cons]
    rcases hg : c.get (keyOf h) now with ⟨o, c2⟩
    cases o with
    | some v =>
      dsimp only
      have := ih (res.insert h v) errs c2 hmt
      rw [this.1, this.2, SMap.lookup_insert_ne _ _ _ _ hhm]
      exact ⟨rfl, rfl⟩
    | none =>
      dsimp only
      cases hc : call h with
      | ok s =>
        dsimp only
        have := ih (res.insert h s) errs (c2.put (keyOf h) s now) hmt
        rw [this.1, this.2, SMap.lookup_insert_ne _ _ _ _ hhm]
        exact ⟨rfl, rfl⟩
      | error e =>
        dsimp only
        have := ih res (errs.insert h e) c2 hmt
        rw [this.1, this.2, SMap.lookup_insert_ne _ _ _ _ hhm]
        exact ⟨rfl, rfl⟩

/-- A cache key not generated by any metric of the list, absent at loop
entry, is still absent at loop exit. -/
theorem runMetricLoop_cache_none (keyOf : String → String)
    (call : String → Except String ℚ) (now : Int) (K : String) :
    ∀ (L : List String) (res : SMap ℚ) (errs : SMap String) (c : LRUCache ℚ),
    (∀ a ∈ L, keyOf a ≠ K) → c.cache.lookup K = none →
    (runMetricLoop keyOf call now L (res, errs, c)).2.2.cache.lookup K =
      none := by
  intro L
  induction L with
  | nil => intro res errs c _ hn; exact hn
  | cons h t ih =>
    intro res errs c hk hn
    have hkt : ∀ a ∈ t, keyOf a ≠ K :=
      fun a ha => hk a (List.mem_cons_of_mem _ ha)
    have hkh : keyOf h ≠ K := hk h (List.mem_cons_self _ _)
    rw [runMetricLoop_cons]
    rcases hg : c.get (keyOf h) now with ⟨o, c2⟩
    have hc2 : c2.cache.lookup K = none := by
      have : (c.get (keyOf h) now).2.cache.lookup K = none :=
        get_none_pres c (keyOf h) now K hn
      rw [hg] at this
      exact this
    cases o with
    | some v =>
      dsimp only
      exact ih _ _ _ hkt hc2
    | none =>
      dsimp only
      cases hc : call h with
      | ok s =>
        dsimp only
        exact ih _ _ _ hkt
          (put_none_pres c2 (keyOf h) s now K (fun hx => hkh hx.symm) hc2)
      | error e =>
        dsimp only
        exact ih _ _ _ hkt hc2

/-- When the provider succeeds on metric `m`, the loop records the score
under `m` (whether freshly computed or served from the cache, whose binding
for `m`'s key can only be absent or the same score) and never touches `m`'s
entry in the error map. -/
theorem runMetricLoop_ok (keyOf : String → String)
    (call : String → Except String ℚ) (now : Int) (m : String) (s : ℚ)
    (hcall : call m = Except.ok s) :
    ∀ (L : List String) (res : SMap ℚ) (errs : SMap String) (c : LRUCache ℚ),
    (∀ a ∈ L, keyOf a = keyOf m → a = m) →
    (c.cache.lookup (keyOf m) = none ∨ c.cache.lookup (keyOf m) = some s) →
    (m ∈ L ∨ res.lookup m = some s) →
    (runMetricLoop keyOf call now L (res, errs, c)).1.lookup m = some s ∧
    (runMetricLoop keyOf call now L (res, errs, c)).2.1.lookup m =
      errs.lookup m := by
  intro L
  induction L with
  | nil =>
    intro res errs c _ _ hpre
    rcases hpre with hmem | hres
    · simp at hmem
    · exact ⟨hres, rfl⟩
  | cons h t ih =>
    intro res errs c hinj hbind hpre
    have hinjt : ∀ a ∈ t, keyOf a = keyOf m → a = m :=
      fun a ha => hinj a (List.mem_cons_of_mem _ ha)
    rw [runMetricLoop_cons]
    rcases hg : c.get (keyOf h) now with ⟨o, c2⟩
    have hc2eq : (c.get (keyOf h) now).2 = c2 := by rw [hg]
    by_cases hhm : h = m
    · subst hhm
      cases o with
      | some v =>
        dsimp only
        have hv : c.cache.lookup (keyOf h) = some v := by
          apply get_some_eq c (keyOf h) now v
          rw [hg]
        have hvs : v = s := by
          rcases hbind with hb | hb
          · rw [hb] at hv; exact absurd hv (by simp)
          · rw [hb] at hv; exact (Option.some_inj.mp hv).symm
        have hbind2 : c2.cache.lookup (keyOf h) = none ∨
            c2.cache.lookup (keyOf h) = some s := by
          rcases get_binding_pres c (keyOf h) now (keyOf h) with hp | hp
          · rw [hc2eq] at hp
            rw [hp]
            right
            rw [hv, hvs]
          · rw [hc2eq] at hp
            left; exact hp
        have := ih (res.insert h v) errs c2 hinjt hbind2
          (Or.inr (by rw [hvs]; exact SMap.lookup_insert_self _ _ _))
        exact this
      | none =>
        dsimp only
        rw [hcall]
        dsimp only
        have hbind2 : (c2.put (keyOf h) s now).cache.lookup (keyOf h) = none ∨
            (c2.put (keyOf h) s now).cache.lookup (keyOf h) = some s :=
          Or.inr (put_lookup_self c2 (keyOf h) s now)
        exact ih (res.insert h s) errs (c2.put (keyOf h) s now) hinjt hbind2
          (Or.inr (SMap.lookup_insert_self _ _ _))
    · have hkey : keyOf h ≠ keyOf m := by
        intro hx
        exact hhm (hinj h (List.mem_cons_self _ _) hx)
      have hpre' : ∀ r : SMap ℚ, r.lookup m = res.lookup m →
          (m ∈ t ∨ r.lookup m = some s) := by
        intro r hr
        rcases hpre with hmem | hres
        · rcases List.mem_cons.mp hmem with h1 | h1
          · exact absurd h1.symm hhm
          · exact Or.inl h1
        · exact Or.inr (by rw [hr]; exact hres)
      have hbindc2 : c2.cache.lookup (keyOf m) = none ∨
          c2.cache.lookup (keyOf m) = some s := by
        rcases get_binding_pres c (keyOf h) now (keyOf m) with hp | hp
        · rw [hc2eq] at hp
          rw [hp]; exact hbind
        · rw [hc2eq] at hp
          left; exact hp
      cases o with
      | some v =>
        dsimp only
        have := ih (res.insert h v) errs c2 hinjt hbindc2
          (hpre' _ (SMap.lookup_insert_ne _ _ _ _ (fun hx => hhm hx.symm)))
        exact this
      | none =>
        dsimp only
        cases hc : call h with
        | ok s2 =>
          dsimp only
          have hbind3 : (c2.put (keyOf h) s2 now).cache.lookup (keyOf m) = none ∨
              (c2.put (keyOf h) s2 now).cache.lookup (keyOf m) = some s := by
            rcases put_binding_pres c2 (keyOf h) s2 now (keyOf m)
                (fun hx => hkey hx.symm) with hp | hp
            · rw [hp]; exact hbindc2
            · left; exact hp
          exact ih (res.insert h s2) errs (c2.put (keyOf h) s2 now) hinjt hbind3
            (hpre' _ (SMap.lookup_insert_ne _ _ _ _ (fun hx => hhm hx.symm)))
        | error e2 =>
          dsimp only
          have := ih res (errs.insert h e2) c2 hinjt hbindc2
            (hpre' _ rfl)
          refine ⟨this.1, ?_⟩
          rw [this.2, SMap.lookup_insert_ne _ _ _ _ (fun hx => hhm hx.symm)]

/-- When the provider fails on metric `m` and `m`'s cache key is absent, the
loop records the exception text under `m` in the error map and never gives
`m` a score. -/
theorem runMetricLoop_err (keyOf : String → String)
    (call : String → Except String ℚ) (now : Int) (m : String) (e : String)
    (hcall : call m = Except.error e) :
    ∀ (L : List String) (res : SMap ℚ) (errs : SMap String) (c : LRUCache ℚ),
    (∀ a ∈ L, keyOf a = keyOf m → a = m) →
    c.cache.lookup (keyOf m) = none →
    (m ∈ L ∨ errs.lookup m = some e) →
    (runMetricLoop keyOf call now L (res, errs, c)).2.1.lookup m = some e ∧
    (runMetricLoop keyOf call now L (res, errs, c)).1.lookup m =
      res.lookup m := by
  intro L
  induction L with
  | nil =>
    intro res errs c _ _ hpre
    rcases hpre with hmem | herr
    · simp at hmem
    · exact ⟨herr, rfl⟩
  | cons h t ih =>
    intro res errs c hinj hnone hpre
    have hinjt : ∀ a ∈ t, keyOf a = keyOf m → a = m :=
      fun a ha => hinj a (List.mem_cons_of_mem _ ha)
    rw [runMetricLoop_cons]
    by_cases hhm : h = m
    · subst hhm
      rw [get_of_lookup_none c (keyOf h) now hnone]
      dsimp only
      rw [hcall]
      dsimp only
      exact ih res (errs.insert h e) c hinjt hnone
        (Or.inr (SMap.lookup_insert_self _ _ _))
    · have hkey : keyOf h ≠ keyOf m := by
        intro hx
        exact hhm (hinj h (List.mem_cons_self _ _) hx)
      rcases hg : c.get (keyOf h) now with ⟨o, c2⟩
      have hc2eq : (c.get (keyOf h) now).2 = c2 := by rw [hg]
      have hnone2 : c2.cache.lookup (keyOf m) = none := by
        have := get_none_pres c (keyOf h) now (keyOf m) hnone
        rw [hc2eq] at this
        exact this
      have hpre' : ∀ r : SMap String, r.lookup m = errs.lookup m →
          (m ∈ t ∨ r.lookup m = some e) := by
        intro r hr
        rcases hpre with hmem | herr
        · rcases List.mem_cons.mp hmem with h1 | h1
          · exact absurd h1.symm hhm
          · exact Or.inl h1
        · exact Or.inr (by rw [hr]; exact herr)
      cases o with
      | some v =>
        dsimp only
        have := ih (res.insert h v) errs c2 hinjt hnone2 (hpre' _ rfl)
        refine ⟨this.1, ?_⟩
        rw [this.2, SMap.lookup_insert_ne _ _ _ _ (fun hx => hhm hx.symm)]
      | none =>
        dsimp only
        cases hc : call h with
        | ok s2 =>
          dsimp only
          have hnone3 : (c2.put (keyOf h) s2 now).cache.lookup (keyOf m) = none :=
            put_none_pres c2 (keyOf h) s2 now (keyOf m)
              (fun hx => hkey hx.symm) hnone2
          have := ih (res.insert h s2) errs (c2.put (keyOf h) s2 now)
            hinjt hnone3 (hpre' _ rfl)
          refine ⟨this.1, ?_⟩
          rw [this.2, SMap.lookup_insert_ne _ _ _ _ (fun hx => hhm hx.symm)]
        | error e2 =>
          dsimp only
          exact ih res (errs.insert h e2) c2 hinjt hnone2
            (hpre' _ (SMap.lookup_insert_ne _ _ _ _ (fun hx => hhm hx.symm)))

/-- When both validations pass and the FR-without-reference check does not
fire, the handler returns the two-loop result. -/
theorem handle_assess_ok (env : Env) (cache : LRUCache ℚ) (now : Int)
    (image_path : String) (metrics : Option (List String))
    (reference_path : Option String)
    (hv : env.validImage image_path = none)
    (hrv : (if refTruthy reference_path then
        env.validImage (reference_path.getD "") else none) = none)
    (hna : ¬ (¬ (frOf env (effectiveMetrics env metrics reference_path)).isEmpty ∧
        ¬ refTruthy reference_path)) :
    handle_assess_image_quality env cache now image_path metrics
        reference_path =
      Except.ok (assessResult env cache now image_path
        (effectiveMetrics env metrics reference_path) reference_path) := by
  unfold handle_assess_image_quality
  rw [hv]
  dsimp only
  rw [hrv]
  dsimp only
  rw [if_neg hna]

/-- When the image path itself fails validation, the handler raises
`InvalidInputError` before touching the cache or the provider. -/
theorem handle_assess_invalid_image (env : Env) (cache : LRUCache ℚ)
    (now : Int) (image_path : String) (metrics : Option (List String))
    (reference_path : Option String) (err : String)
    (hv : env.validImage image_path = some err) :
    handle_assess_image_quality env cache now image_path metrics
        reference_path = Except.error ("Invalid image path: " ++ err) := by
  unfold handle_assess_image_quality
  rw [hv]

/-- C1. For every single-image assessment request and every set of requested
metric names (with validation passing, the per-request cache keys pairwise
distinct and fresh, and the disjoint pyiqa catalog lists), a failure raised
by the scoring provider while computing one metric `m` is caught and
recorded under `m` in the response's `errors` map, and every other requested
metric on which the provider succeeds still receives its score in the
`scores` map. -/
theorem C1_provider_failure_isolated
    (env : Env) (cache : LRUCache ℚ) (now : Int) (image_path : String)
    (metrics : Option (List String)) (reference_path : Option String)
    (m e : String)
    (hv : env.validImage image_path = none)
    (hrv : (if refTruthy reference_path then
        env.validImage (reference_path.getD "") else none) = none)
    (hna : ¬ (¬ (frOf env (effectiveMetrics env metrics reference_path)).isEmpty ∧
        ¬ refTruthy reference_path))
    (hdisj : ∀ x ∈ effectiveMetrics env metrics reference_path,
      ¬ (env.frMetrics.contains x = true ∧ env.nrMetrics.contains x = true))
    (hfresh : ∀ a ∈ effectiveMetrics env metrics reference_path,
      cache.cache.lookup (cacheKeyNR a image_path) = none ∧
      cache.cache.lookup (cacheKeyFR a image_path (reference_path.getD "")) = none)
    (hkeys : KeysOK image_path (reference_path.getD "")
      (nrOf env (effectiveMetrics env metrics reference_path))
      (frOf env (effectiveMetrics env metrics reference_path)))
    (hm : (m ∈ nrOf env (effectiveMetrics env metrics reference_path) ∧
            env.provider m image_path none = Except.error e) ∨
          (m ∈ frOf env (effectiveMetrics env metrics reference_path) ∧
            env.provider m image_path reference_path = Except.error e)) :
    ((handle_assess_image_quality env cache now image_path metrics
        reference_path).toOption.map (fun rc => rc.1.errors.lookup m)) =
      some (some e) ∧
    (∀ m' s', m' ≠ m →
      ((m' ∈ nrOf env (effectiveMetrics env metrics reference_path) ∧
          env.provider m' image_path none = Except.ok s') ∨
       (m' ∈ frOf env (effectiveMetrics env metrics reference_path) ∧
          env.provider m' image_path reference_path = Except.ok s')) →
      ((handle_assess_image_quality env cache now image_path metrics
          reference_path).toOption.map (fun rc => rc.1.scores.lookup m')) =
        some (some s')) := by
  rw [handle_assess_ok env cache now image_path metrics reference_path
    hv hrv hna]
  unfold assessResult
  rcases hNR : runMetricLoop (fun a => cacheKeyNR a image_path)
      (fun a => env.provider a image_path none) now
      (nrOf env (effectiveMetrics env metrics reference_path))
      (SMap.empty, SMap.empty, cache) with ⟨res1, errs1, c1⟩
  rcases hFR : runMetricLoop
      (fun a => cacheKeyFR a image_path (reference_path.getD ""))
      (fun a => env.provider a image_path reference_path) now
      (frOf env (effectiveMetrics env metrics reference_path))
      (res1, errs1, c1) with ⟨res2, errs2, c2⟩
  dsimp only [assembleResponse, Except.toOption, Option.map]
  have hmemML : ∀ a, a ∈ nrOf env (effectiveMetrics env metrics reference_path) →
      a ∈ effectiveMetrics env metrics reference_path :=
    fun a ha => (List.mem_filter.mp ha).1
  have hmemMLfr : ∀ a, a ∈ frOf env (effectiveMetrics env metrics reference_path) →
      a ∈ effectiveMetrics env metrics reference_path :=
    fun a ha => (List.mem_filter.mp ha).1
  have hnotboth : ∀ a,
      a ∈ nrOf env (effectiveMetrics env metrics reference_path) →
      a ∉ frOf env (effectiveMetrics env metrics reference_path) := by
    intro a hanr hafr
    exact hdisj a (hmemML a hanr)
      ⟨(List.mem_filter.mp hafr).2, (List.mem_filter.mp hanr).2⟩
  constructor
  · rcases hm with ⟨hmem, herr⟩ | ⟨hmem, herr⟩
    · -- m is a no-reference metric: the NR loop records the error, the FR
      -- loop leaves it alone.
      have hinjNR : ∀ a ∈ nrOf env (effectiveMetrics env metrics reference_path),
          cacheKeyNR a image_path = cacheKeyNR m image_path → a = m :=
        fun a ha heq => hkeys.1 a ha m hmem heq
      have hstep := runMetricLoop_err (fun a => cacheKeyNR a image_path)
        (fun a => env.provider a image_path none) now m e herr
        (nrOf env (effectiveMetrics env metrics reference_path))
        SMap.empty SMap.empty cache hinjNR
        (hfresh m (hmemML m hmem)).1 (Or.inl hmem)
      rw [hNR] at hstep
      have hframe := runMetricLoop_frame
        (fun a => cacheKeyFR a image_path (reference_path.getD ""))
        (fun a => env.provider a image_path reference_path) now m
        (frOf env (effectiveMetrics env metrics reference_path))
        res1 errs1 c1 (hnotboth m hmem)
      rw [hFR] at hframe
      rw [hframe.2, hstep.1]
    · -- m is a full-reference metric: its FR cache key survives the NR loop
      -- untouched, and the FR loop records the error.
      have hinjFR : ∀ a ∈ frOf env (effectiveMetrics env metrics reference_path),
          cacheKeyFR a image_path (reference_path.getD "") =
            cacheKeyFR m image_path (reference_path.getD "") → a = m :=
        fun a ha heq => hkeys.2.1 a ha m hmem heq
      have hnone1 := runMetricLoop_cache_none (fun a => cacheKeyNR a image_path)
        (fun a => env.provider a image_path none) now
        (cacheKeyFR m image_path (reference_path.getD ""))
        (nrOf env (effectiveMetrics env metrics reference_path))
        SMap.empty SMap.empty cache
        (fun a ha => hkeys.2.2 a ha m hmem)
        (hfresh m (hmemMLfr m hmem)).2
      rw [hNR] at hnone1
      have hstep := runMetricLoop_err
        (fun a => cacheKeyFR a image_path (reference_path.getD ""))
        (fun a => env.provider a image_path reference_path) now m e herr
        (frOf env (effectiveMetrics env metrics reference_path))
        res1 errs1 c1 hinjFR hnone1 (Or.inl hmem)
      rw [hFR] at hstep
      rw [hstep.1]
  · intro m' s' _ hcase
    rcases hcase with ⟨hmem', hok⟩ | ⟨hmem', hok⟩
    · have hinjNR : ∀ a ∈ nrOf env (effectiveMetrics env metrics reference_path),
          cacheKeyNR a image_path = cacheKeyNR m' image_path → a = m' :=
        fun a ha heq => hkeys.1 a ha m' hmem' heq
      have hstep := runMetricLoop_ok (fun a => cacheKeyNR a image_path)
        (fun a => env.provider a image_path none) now m' s' hok
        (nrOf env (effectiveMetrics env metrics reference_path))
        SMap.empty SMap.empty cache hinjNR
        (Or.inl (hfresh m' (hmemML m' hmem')).1) (Or.inl hmem')
      rw [hNR] at hstep
      have hframe := runMetricLoop_frame
        (fun a => cacheKeyFR a image_path (reference_path.getD ""))
        (fun a => env.provider a image_path reference_path) now m'
        (frOf env (effectiveMetrics env metrics reference_path))
        res1 errs1 c1 (hnotboth m' hmem')
      rw [hFR] at hframe
      rw [hframe.1, hstep.1]
    · have hinjFR : ∀ a ∈ frOf env (effectiveMetrics env metrics reference_path),
          cacheKeyFR a image_path (reference_path.getD "") =
            cacheKeyFR m' image_path (reference_path.getD "") → a = m' :=
        fun a ha heq => hkeys.2.1 a ha m' hmem' heq
      have hnone1 := runMetricLoop_cache_none (fun a => cacheKeyNR a image_path)
        (fun a => env.provider a image_path none) now
        (cacheKeyFR m' image_path (reference_path.getD ""))
        (nrOf env (effectiveMetrics env metrics reference_path))
        SMap.empty SMap.empty cache
        (fun a ha => hkeys.2.2 a ha m' hmem')
        (hfresh m' (hmemMLfr m' hmem')).2
      rw [hNR] at hnone1
      have hstep := runMetricLoop_ok
        (fun a => cacheKeyFR a image_path (reference_path.getD ""))
        (fun a => env.provider a image_path reference_path) now m' s' hok
        (frOf env (effectiveMetrics env metrics reference_path))
        res1 errs1 c1 hinjFR (Or.inl hnone1) (Or.inl hmem')
      rw [hFR] at hstep
      rw [hstep.1]

/-- C1 witness: with the provider failing on `brisque` and succeeding on
`niqe`, one request for both yields the error entry for `brisque` and the
score for `niqe`. -/
theorem C1_provider_failure_isolated_witness :
    ((handle_assess_image_quality envFail (LRUCache.mk0 1000) 0 "img.png"
        (some ["brisque", "niqe"]) none).toOption.map
      (fun rc => rc.1.errors.lookup "brisque")) = some (some "boom") ∧
    ((handle_assess_image_quality envFail (LRUCache.mk0 1000) 0 "img.png"
        (some ["brisque", "niqe"]) none).toOption.map
      (fun rc => rc.1.scores.lookup "niqe")) = some (some 1) := by
  have h := C1_provider_failure_isolated envFail (LRUCache.mk0 1000) 0
    "img.png" (some ["brisque", "niqe"]) none "brisque" "boom"
    (by rfl) (by rfl) (by decide) (by decide) (by decide)
    (by unfold KeysOK; decide)
    (Or.inl ⟨by decide, by rfl⟩)
  exact ⟨h.1, h.2 "niqe" 1 (by decide) (Or.inl ⟨by decide, by rfl⟩)⟩

/-- C9. When the metric-names field is absent, the handler behaves exactly
as if the caller had requested the full catalog matching the reference
situation: all full-reference metrics (`pyiqa.get_fr_metrics()`) when a
(truthy) reference path is supplied, all no-reference metrics
(`pyiqa.get_nr_metrics()`) when it is not. -/
theorem C9_default_metric_selection (env : Env) (cache : LRUCache ℚ)
    (now : Int) (image_path : String) (reference_path : Option String) :
    handle_assess_image_quality env cache now image_path none
        reference_path =
      handle_assess_image_quality env cache now image_path
        (some (if refTruthy reference_path then env.frMetrics
               else env.nrMetrics)) reference_path := by
  unfold handle_assess_image_quality effectiveMetrics
  rfl

/-- C4 counterexample. A requested metric name unknown to the catalog is
silently dropped: it ends up in neither the scores map nor the errors map,
although the claim says every requested name appears in exactly one of them
and unknown names are reported. -/
theorem C4_counterexample :
    ((handle_assess_image_quality envDemo (LRUCache.mk0 1000) 0 "img.png"
        (some ["mystery"]) none).toOption.map
      (fun rc => (rc.1.scores.lookup "mystery",
                  rc.1.errors.lookup "mystery"))) = some (none, none) ∧
    "mystery" ∈ ["mystery"] := by
  exact ⟨by rfl, by decide⟩

/-- C4 amended. Every requested metric name that belongs to the catalog
(the FR or NR list) appears exactly once in the response — under a key of
the scores map or of the errors map, never both; a requested name unknown
to the catalog is silently dropped and appears in neither map. -/
theorem C4_known_metrics_exactly_once
    (env : Env) (cache : LRUCache ℚ) (now : Int) (image_path : String)
    (metrics : Option (List String)) (reference_path : Option String)
    (hv : env.validImage image_path = none)
    (hrv : (if refTruthy reference_path then
        env.validImage (reference_path.getD "") else none) = none)
    (hna : ¬ (¬ (frOf env (effectiveMetrics env metrics reference_path)).isEmpty ∧
        ¬ refTruthy reference_path))
    (hdisj : ∀ x ∈ effectiveMetrics env metrics reference_path,
      ¬ (env.frMetrics.contains x = true ∧ env.nrMetrics.contains x = true))
    (hfresh : ∀ a ∈ effectiveMetrics env metrics reference_path,
      cache.cache.lookup (cacheKeyNR a image_path) = none ∧
      cache.cache.lookup (cacheKeyFR a image_path (reference_path.getD "")) = none)
    (hkeys : KeysOK image_path (reference_path.getD "")
      (nrOf env (effectiveMetrics env metrics reference_path))
      (frOf env (effectiveMetrics env metrics reference_path))) :
    ∀ m' ∈ effectiveMetrics env metrics reference_path,
      ((env.nrMetrics.contains m' = true ∨ env.frMetrics.contains m' = true) →
        (((handle_assess_image_quality env cache now image_path metrics
            reference_path).toOption.map
          (fun rc => ((rc.1.scores.lookup m').isSome,
                      (rc.1.errors.lookup m').isSome))) = some (true, false) ∨
         ((handle_assess_image_quality env cache now image_path metrics
            reference_path).toOption.map
          (fun rc => ((rc.1.scores.lookup m').isSome,
                      (rc.1.errors.lookup m').isSome))) = some (false, true))) ∧
      ((env.nrMetrics.contains m' = false ∧ env.frMetrics.contains m' = false) →
        ((handle_assess_image_quality env cache now image_path metrics
            reference_path).toOption.map
          (fun rc => (rc.1.scores.lookup m', rc.1.errors.lookup m'))) =
          some (none, none)) := by
  rw [handle_assess_ok env cache now image_path metrics reference_path
    hv hrv hna]
  unfold assessResult
  rcases hNR : runMetricLoop (fun a => cacheKeyNR a image_path)
      (fun a => env.provider a image_path none) now
      (nrOf env (effectiveMetrics env metrics reference_path))
      (SMap.empty, SMap.empty, cache) with ⟨res1, errs1, c1⟩
  rcases hFR : runMetricLoop
      (fun a => cacheKeyFR a image_path (reference_path.getD ""))
      (fun a => env.provider a image_path reference_path) now
      (frOf env (effectiveMetrics env metrics reference_path))
      (res1, errs1, c1) with ⟨res2, errs2, c2⟩
  dsimp only [assembleResponse, Except.toOption, Option.map]
  intro m' hmem'
  constructor
  · intro hknown
    by_cases hnr : env.nrMetrics.contains m' = true
    · -- m' is a no-reference metric.
      have hmemnr : m' ∈ nrOf env (effectiveMetrics env metrics reference_path) :=
        List.mem_filter.mpr ⟨hmem', hnr⟩
      have hnotfr : m' ∉ frOf env (effectiveMetrics env metrics reference_path) := by
        intro hfr
        exact hdisj m' hmem' ⟨(List.mem_filter.mp hfr).2, hnr⟩
      have hinjNR : ∀ a ∈ nrOf env (effectiveMetrics env metrics reference_path),
          cacheKeyNR a image_path = cacheKeyNR m' image_path → a = m' :=
        fun a ha heq => hkeys.1 a ha m' hmemnr heq
      have hframe := runMetricLoop_frame
        (fun a => cacheKeyFR a image_path (reference_path.getD ""))
        (fun a => env.provider a image_path reference_path) now m'
        (frOf env (effectiveMetrics env metrics reference_path))
        res1 errs1 c1 hnotfr
      rw [hFR] at hframe
      cases hp : env.provider m' image_path none with
      | ok s =>
        left
        have hstep := runMetricLoop_ok (fun a => cacheKeyNR a image_path)
          (fun a => env.provider a image_path none) now m' s hp
          (nrOf env (effectiveMetrics env metrics reference_path))
          SMap.empty SMap.empty cache hinjNR
          (Or.inl (hfresh m' hmem').1) (Or.inl hmemnr)
        rw [hNR] at hstep
        rw [hframe.1, hframe.2, hstep.1, hstep.2]
        rfl
      | error e =>
        right
        have hstep := runMetricLoop_err (fun a => cacheKeyNR a image_path)
          (fun a => env.provider a image_path none) now m' e hp
          (nrOf env (effectiveMetrics env metrics reference_path))
          SMap.empty SMap.empty cache hinjNR
          (hfresh m' hmem').1 (Or.inl hmemnr)
        rw [hNR] at hstep
        rw [hframe.1, hframe.2, hstep.1, hstep.2]
        rfl
    · -- m' must be a full-reference metric.
      have hfrt : env.frMetrics.contains m' = true := by
        rcases hknown with h1 | h1
        · exact absurd h1 hnr
        · exact h1
      have hmemfr : m' ∈ frOf env (effectiveMetrics env metrics reference_path) :=
        List.mem_filter.mpr ⟨hmem', hfrt⟩
      have hnotnr : m' ∉ nrOf env (effectiveMetrics env metrics reference_path) := by
        intro hn
        exact hnr (List.mem_filter.mp hn).2
      have hinjFR : ∀ a ∈ frOf env (effectiveMetrics env metrics reference_path),
          cacheKeyFR a image_path (reference_path.getD "") =
            cacheKeyFR m' image_path (reference_path.getD "") → a = m' :=
        fun a ha heq => hkeys.2.1 a ha m' hmemfr heq
      have hframe := runMetricLoop_frame (fun a => cacheKeyNR a image_path)
        (fun a => env.provider a image_path none) now m'
        (nrOf env (effectiveMetrics env metrics reference_path))
        SMap.empty SMap.empty cache hnotnr
      rw [hNR] at hframe
      have hnone1 := runMetricLoop_cache_none (fun a => cacheKeyNR a image_path)
        (fun a => env.provider a image_path none) now
        (cacheKeyFR m' image_path (reference_path.getD ""))
        (nrOf env (effectiveMetrics env metrics reference_path))
        SMap.empty SMap.empty cache
        (fun a ha => hkeys.2.2 a ha m' hmemfr)
        (hfresh m' hmem').2
      rw [hNR] at hnone1
      cases hp : env.provider m' image_path reference_path with
      | ok s =>
        left
        have hstep := runMetricLoop_ok
          (fun a => cacheKeyFR a image_path (reference_path.getD ""))
          (fun a => env.provider a image_path reference_path) now m' s hp
          (frOf env (effectiveMetrics env metrics reference_path))
          res1 errs1 c1 hinjFR (Or.inl hnone1) (Or.inl hmemfr)
        rw [hFR] at hstep
        rw [hstep.1, hstep.2, hframe.2]
        rfl
      | error e =>
        right
        have hstep := runMetricLoop_err
          (fun a => cacheKeyFR a image_path (reference_path.getD ""))
          (fun a => env.provider a image_path reference_path) now m' e hp
          (frOf env (effectiveMetrics env metrics reference_path))
          res1 errs1 c1 hinjFR hnone1 (Or.inl hmemfr)
        rw [hFR] at hstep
        rw [hstep.1, hstep.2, hframe.1]
        rfl
  · intro hunknown
    have hnotnr : m' ∉ nrOf env (effectiveMetrics env metrics reference_path) := by
      intro hn
      have hcc : env.nrMetrics.contains m' = true := (List.mem_filter.mp hn).2
      rw [hunknown.1] at hcc
      exact Bool.noConfusion hcc
    have hnotfr : m' ∉ frOf env (effectiveMetrics env metrics reference_path) := by
      intro hf
      have hcc : env.frMetrics.contains m' = true := (List.mem_filter.mp hf).2
      rw [hunknown.2] at hcc
      exact Bool.noConfusion hcc
    have hframeNR := runMetricLoop_frame (fun a => cacheKeyNR a image_path)
      (fun a => env.provider a image_path none) now m'
      (nrOf env (effectiveMetrics env metrics reference_path))
      SMap.empty SMap.empty cache hnotnr
    rw [hNR] at hframeNR
    have hframeFR := runMetricLoop_frame
      (fun a => cacheKeyFR a image_path (reference_path.getD ""))
      (fun a => env.provider a image_path reference_path) now m'
      (frOf env (effectiveMetrics env metrics reference_path))
      res1 errs1 c1 hnotfr
    rw [hFR] at hframeFR
    rw [hframeFR.1, hframeFR.2, hframeNR.1, hframeNR.2]
    rfl

/-- C4 witness: with a reference supplied, `psnr` (known, FR) lands in
exactly one map and `mystery` (unknown) in neither. -/
theorem C4_known_metrics_exactly_once_witness :
    (((handle_assess_image_quality envFail (LRUCache.mk0 1000) 0 "img.png"
        (some ["psnr", "mystery"]) (some "r.png")).toOption.map
      (fun rc => ((rc.1.scores.lookup "psnr").isSome,
                  (rc.1.errors.lookup "psnr").isSome)) = some (true, false)) ∨
     ((handle_assess_image_quality envFail (LRUCache.mk0 1000) 0 "img.png"
        (some ["psnr", "mystery"]) (some "r.png")).toOption.map
      (fun rc => ((rc.1.scores.lookup "psnr").isSome,
                  (rc.1.errors.lookup "psnr").isSome)) = some (false, true))) ∧
    ((handle_assess_image_quality envFail (LRUCache.mk0 1000) 0 "img.png"
        (some ["psnr", "mystery"]) (some "r.png")).toOption.map
      (fun rc => (rc.1.scores.lookup "mystery",
                  rc.1.errors.lookup "mystery")) = some (none, none)) := by
  have h := C4_known_metrics_exactly_once envFail (LRUCache.mk0 1000) 0
    "img.png" (some ["psnr", "mystery"]) (some "r.png")
    (by rfl) (by rfl) (by decide) (by decide) (by decide)
    (by unfold KeysOK; decide)
  exact ⟨(h "psnr" (by decide)).1 (by decide),
         (h "mystery" (by decide)).2 (by decide)⟩

/-- C3 counterexample. Requesting `psnr` and `ssim` with no reference path
does not produce a response with two `MissingReference` error entries: the
handler aborts the whole request with `InvalidInputError` before computing
anything, so there is no response at all (and in particular no errors map
with two entries). -/
theorem C3_counterexample :
    handle_assess_image_quality envDemo (LRUCache.mk0 1000) 0 "img.png"
        (some ["psnr", "ssim"]) none =
      Except.error "Reference image required for metrics: [psnr, ssim]" := by
  rfl

/-- C3 amended. A request containing a reference-required metric with no
(truthy) reference path is aborted as a whole: the handler raises
`InvalidInputError` naming the FR metrics, before any per-metric scoring,
so neither a score nor a per-metric error entry is produced for any
requested metric. -/
theorem C3_missing_reference_aborts (env : Env) (cache : LRUCache ℚ)
    (now : Int) (image_path : String) (metrics : Option (List String))
    (reference_path : Option String)
    (hv : env.validImage image_path = none)
    (hr : refTruthy reference_path = false)
    (hfr : (frOf env (effectiveMetrics env metrics reference_path)).isEmpty =
      false) :
    handle_assess_image_quality env cache now image_path metrics
        reference_path =
      Except.error ("Reference image required for metrics: [" ++
        String.intercalate ", "
          (frOf env (effectiveMetrics env metrics reference_path)) ++ "]") := by
  unfold handle_assess_image_quality
  rw [hv]
  dsimp only
  rw [hr, if_neg Bool.false_ne_true]
  dsimp only
  rw [if_pos]
  constructor
  · rw [hfr]
    exact Bool.false_ne_true
  · exact Bool.false_ne_true

/-- C5 counterexample. An entry created at time 0 and accessed at time 3000
is still returned by `get` at time 4000, although 4000 exceeds
`createdAt + CACHE_TIMEOUT = 3600`: the access at 3000 refreshed the single
timestamp the expiry check reads, so expiry is not measured from creation. -/
theorem C5_counterexample :
    ((((LRUCache.mk0 1000 : LRUCache ℚ).put "k" 1 0).get "k" 3000).2.get
        "k" 4000).1 = some 1 ∧
    (4000 : Int) - 0 > CACHE_TIMEOUT := by
  constructor
  · rfl
  · decide

/-- C5 amended. `get(k)` returns absent once the time since `k`'s last
timestamp refresh (set by `put` and refreshed by every non-expired `get`)
exceeds the TTL — so an entry accessed within the window has its expiry
clock reset rather than expiring at `createdAt + ttl`. The expiry check
still runs before the LRU-touch: an expired entry is popped from both dicts
(hence never resurrected by the access), and a surviving hit refreshes the
timestamp. -/
theorem C5_ttl_from_last_refresh {α : Type} (c : LRUCache α) (key : String)
    (now : Int) (v : α) (ts : Int)
    (hv : c.cache.lookup key = some v)
    (ht : c.timestamps.lookup key = some ts) :
    (now - ts > CACHE_TIMEOUT →
      c.get key now = (none, { c with cache := c.cache.erase key,
                                      timestamps := c.timestamps.erase key }) ∧
      (c.get key now).2.cache.lookup key = none ∧
      (c.get key now).2.timestamps.lookup key = none) ∧
    (¬ now - ts > CACHE_TIMEOUT →
      c.get key now = (some v,
        { c with timestamps := c.timestamps.insert key now }) ∧
      (c.get key now).2.timestamps.lookup key = some now) := by
  have hbase : c.get key now =
      (if now - ts > CACHE_TIMEOUT then
        (none, { c with cache := c.cache.erase key,
                        timestamps := c.timestamps.erase key })
      else
        (some v, { c with timestamps := c.timestamps.insert key now })) := by
    unfold LRUCache.get
    rw [hv]
    dsimp only
    rw [ht]
  constructor
  · intro hex
    rw [hbase, if_pos hex]
    exact ⟨rfl, SMap.lookup_erase_self _ _, SMap.lookup_erase_self _ _⟩
  · intro hex
    rw [hbase, if_neg hex]
    exact ⟨rfl, SMap.lookup_insert_self _ _ _⟩

/-- C5 witness: on a concrete one-entry cache, the expired branch deletes
and the fresh branch refreshes. -/
theorem C5_ttl_from_last_refresh_witness :
    (((LRUCache.mk0 1000 : LRUCache ℚ).put "k" 1 0).get "k" 4000).1 = none ∧
    (((LRUCache.mk0 1000 : LRUCache ℚ).put "k" 1 0).get "k"
      4000).2.cache.lookup "k" = none ∧
    (((LRUCache.mk0 1000 : LRUCache ℚ).put "k" 1 0).get "k" 1000).1 = some 1 ∧
    (((LRUCache.mk0 1000 : LRUCache ℚ).put "k" 1 0).get "k"
      1000).2.timestamps.lookup "k" = some 1000 := by
  have h := C5_ttl_from_last_refresh
    ((LRUCache.mk0 1000 : LRUCache ℚ).put "k" 1 0) "k" 4000 1 0
    (by rfl) (by rfl)
  have h2 := C5_ttl_from_last_refresh
    ((LRUCache.mk0 1000 : LRUCache ℚ).put "k" 1 0) "k" 1000 1 0
    (by rfl) (by rfl)
  have ha := h.1 (by decide)
  have hb := h2.2 (by decide)
  refine ⟨?_, ha.2.1, ?_, hb.2⟩
  · rw [ha.1]
  · rw [hb.1]

/-- C10. Below capacity, `put(k, v)` leaves every entry with a key other
than `k` untouched in both dicts; but at capacity the eviction runs before
the incoming key is examined, so a `put` of an already-present key still
evicts the minimum-timestamp entry — an unrelated entry disappears and the
cache ends up below capacity. -/
theorem C10_put_below_capacity_frame_and_eviction {α : Type} :
    (∀ (c : LRUCache α) (k : String) (v : α) (now : Int) (k' : String),
      c.cache.size < c.maxsize → k' ≠ k →
      (c.put k v now).cache.lookup k' = c.cache.lookup k' ∧
      (c.put k v now).timestamps.lookup k' = c.timestamps.lookup k') ∧
    (∀ (c : LRUCache α) (k : String) (v : α) (now : Int) (j : String)
        (tj : Int),
      c.cache.size ≥ c.maxsize → c.cache.size ≤ c.maxsize → Synced c →
      c.timestamps.minEntry = some (j, tj) → j ≠ k →
      c.cache.contains k = true →
      (c.put k v now).cache.lookup j = none ∧
      (c.put k v now).cache.lookup k = some v ∧
      (c.put k v now).cache.size < c.maxsize) := by
  constructor
  · intro c k v now k' hlt hne
    rw [put_not_full c k v now (by omega)]
    exact ⟨SMap.lookup_insert_ne _ _ _ _ hne,
           SMap.lookup_insert_ne _ _ _ _ hne⟩
  · intro c k v now j tj hge hle hsync hmin hjk hck
    rw [put_full c k v now hge (j, tj) hmin]
    have hjk' : j ≠ k := hjk
    refine ⟨?_, ?_, ?_⟩
    · show ((c.cache.erase j).insert k v).lookup j = none
      rw [SMap.lookup_insert_ne _ _ _ _ hjk']
      exact SMap.lookup_erase_self _ _
    · exact SMap.lookup_insert_self _ _ _
    · show ((c.cache.erase j).insert k v).size < c.maxsize
      have hck' : (c.cache.erase j).contains k = true := by
        rw [SMap.contains_iff_lookup_isSome] at hck ⊢
        rw [SMap.lookup_erase_ne _ _ _ (fun hx => hjk (hx.symm))]
        exact hck
      rw [SMap.size_insert_mem _ _ _ hck']
      have hcj : c.cache.contains j = true := by
        rw [SMap.contains_eq_keys_mem, hsync]
        have := SMap.minEntry_mem c.timestamps (j, tj) hmin
        exact List.mem_map_of_mem _ this
      have := SMap.size_erase_lt c.cache j hcj
      omega

/-- C10 witness: on a two-entry cache at capacity 2, a `put` of the
existing key `"b"` evicts the unrelated minimum-timestamp key `"a"` and
leaves one entry; below capacity, a `put` of `"b"` leaves `"a"` alone. -/
theorem C10_put_below_capacity_frame_and_eviction_witness :
    ((((LRUCache.mk0 2 : LRUCache ℚ).put "a" 1 0).put "b" 2
        10).cache.lookup "a" = some 1 ∧
      (((LRUCache.mk0 2 : LRUCache ℚ).put "a" 1 0).put "b" 2
        10).timestamps.lookup "a" = some 0) ∧
    (((((LRUCache.mk0 2 : LRUCache ℚ).put "a" 1 0).put "b" 2 1).put "b" 3
        2).cache.lookup "a" = none ∧
      ((((LRUCache.mk0 2 : LRUCache ℚ).put "a" 1 0).put "b" 2 1).put "b" 3
        2).cache.lookup "b" = some 3 ∧
      ((((LRUCache.mk0 2 : LRUCache ℚ).put "a" 1 0).put "b" 2 1).put "b" 3
        2).cache.size < 2) := by
  constructor
  · exact (C10_put_below_capacity_frame_and_eviction.1
      ((LRUCache.mk0 2 : LRUCache ℚ).put "a" 1 0) "b" 2 10 "a"
      (by decide) (by decide))
  · exact (C10_put_below_capacity_frame_and_eviction.2
      (((LRUCache.mk0 2 : LRUCache ℚ).put "a" 1 0).put "b" 2 1) "b" 3 2
      "a" 0 (by decide) (by decide) (by unfold Synced; decide) (by decide)
      (by decide) (by decide))

/-- C3 witness: the amended behaviour at the concrete scenario-B input. -/
theorem C3_missing_reference_aborts_witness :
    handle_assess_image_quality envDemo (LRUCache.mk0 1000) 0 "img.png"
        (some ["psnr", "ssim"]) none =
      Except.error ("Reference image required for metrics: [" ++
        String.intercalate ", "
          (frOf envDemo (effectiveMetrics envDemo (some ["psnr", "ssim"])
            none)) ++ "]") :=
  C3_missing_reference_aborts envDemo (LRUCache.mk0 1000) 0 "img.png"
    (some ["psnr", "ssim"]) none (by rfl) (by rfl) (by rfl)

theorem putList_append {α : Type} (a b : List (String × α × Int)) :
    ∀ c : LRUCache α, putList c (a ++ b) = putList (putList c a) b := by
  induction a with
  | nil => intro c; rfl
  | cons e es ih =>
    intro c
    show putList (c.put e.1 e.2.1 e.2.2) (es ++ b) = _
    exact ih (c.put e.1 e.2.1 e.2.2)

/-- A non-expired `get` on a present key returns the stored value. -/
theorem get_hit {α : Type} (c : LRUCache α) (k : String) (tq : Int) (v : α)
    (t : Int) (hv : c.cache.lookup k = some v)
    (ht : c.timestamps.lookup k = some t)
    (hfr : ¬ (tq - t > CACHE_TIMEOUT)) : (c.get k tq).1 = some v := by
  unfold LRUCache.get
  rw [hv]
  dsimp only
  rw [ht]
  dsimp only
  rw [if_neg hfr]

/-- The eviction scenario: `maxsize + 1` distinct puts with strictly
increasing timestamps into an empty cache leave exactly the last `maxsize`
entries, the first-inserted key having been evicted by the final put. -/
theorem putList_scenario_entries {α : Type} (maxsize : Nat)
    (e0 : String × α × Int) (mid : List (String × α × Int))
    (elast : String × α × Int)
    (hlen : mid.length + 1 = maxsize)
    (hnd : ((e0 :: (mid ++ [elast])).map (·.1)).Nodup)
    (hinc : ((e0 :: (mid ++ [elast])).map (fun e => e.2.2)).Pairwise (· < ·)) :
    (putList (LRUCache.mk0 maxsize) (e0 :: (mid ++ [elast]))).cache.entries =
      mid.map (fun a => (a.1, a.2.1)) ++ [(elast.1, elast.2.1)] ∧
    (putList (LRUCache.mk0 maxsize)
        (e0 :: (mid ++ [elast]))).timestamps.entries =
      mid.map (fun a => (a.1, a.2.2)) ++ [(elast.1, elast.2.2)] := by
  -- Unpack the Nodup and Pairwise hypotheses.
  have hndshape : (e0.1 :: (mid.map (·.1) ++ [elast.1])).Nodup := by
    have : (e0 :: (mid ++ [elast])).map (·.1) =
        e0.1 :: (mid.map (·.1) ++ [elast.1]) := by
      simp [List.map_append]
    rw [this] at hnd
    exact hnd
  rw [List.nodup_cons] at hndshape
  have he0notmid : e0.1 ∉ mid.map (·.1) := by
    intro hx
    exact hndshape.1 (List.mem_append.mpr (Or.inl hx))
  have he0notlast : e0.1 ≠ elast.1 := by
    intro hx
    exact hndshape.1 (List.mem_append.mpr (Or.inr (by simp [hx])))
  have hndtail := hndshape.2
  rw [List.nodup_append] at hndtail
  have hmidnd : (mid.map (·.1)).Nodup := hndtail.1
  have hlastnotmid : elast.1 ∉ mid.map (·.1) := by
    intro hx
    exact hndtail.2.2 hx (by simp)
  have hincshape : (e0.2.2 :: ((mid ++ [elast]).map (fun e => e.2.2))).Pairwise
      (· < ·) := by
    have : (e0 :: (mid ++ [elast])).map (fun e => e.2.2) =
        e0.2.2 :: ((mid ++ [elast]).map (fun e => e.2.2)) := by simp
    rw [this] at hinc
    exact hinc
  rw [List.pairwise_cons] at hincshape
  have he0lt : ∀ a ∈ mid, e0.2.2 < a.2.2 := by
    intro a ha
    exact hincshape.1 a.2.2 (by
      rw [List.map_append]
      exact List.mem_append.mpr (Or.inl (List.mem_map_of_mem _ ha)))
  -- The first maxsize puts stack up with no eviction.
  have hsplit : putList (LRUCache.mk0 maxsize) (e0 :: (mid ++ [elast])) =
      putList (putList (LRUCache.mk0 maxsize) (e0 :: mid)) [elast] := by
    have : e0 :: (mid ++ [elast]) = (e0 :: mid) ++ [elast] := rfl
    rw [this, putList_append]
  have hfreshinit : ∀ a ∈ e0 :: mid,
      containsL (LRUCache.mk0 maxsize : LRUCache α).cache.entries a.1 = false := by
    intro a _
    rfl
  have hndinit : ((e0 :: mid).map (·.1)).Nodup := by
    rw [List.map_cons, List.nodup_cons]
    refine ⟨he0notmid, hmidnd⟩
  have hS := putList_fresh (e0 :: mid) (LRUCache.mk0 maxsize)
    (by
      show 0 + (e0 :: mid).length ≤ maxsize
      have : (e0 :: mid).length = mid.length + 1 := by
        rw [List.length_cons]
      omega)
    hfreshinit hndinit rfl
  have hScache : (putList (LRUCache.mk0 maxsize) (e0 :: mid)).cache.entries =
      (e0.1, e0.2.1) :: mid.map (fun a => (a.1, a.2.1)) := by
    rw [hS.1]
    rfl
  have hSts : (putList (LRUCache.mk0 maxsize) (e0 :: mid)).timestamps.entries =
      (e0.1, e0.2.2) :: mid.map (fun a => (a.1, a.2.2)) := by
    rw [hS.2.1]
    rfl
  have hSmax : (putList (LRUCache.mk0 maxsize) (e0 :: mid)).maxsize =
      maxsize := hS.2.2
  -- The final put is at capacity and evicts the first key.
  have hSsize : (putList (LRUCache.mk0 maxsize) (e0 :: mid)).cache.size =
      maxsize := by
    unfold SMap.size
    rw [hScache, List.length_cons, List.length_map]
    omega
  have hsfull : (putList (LRUCache.mk0 maxsize) (e0 :: mid)).cache.size ≥
      (putList (LRUCache.mk0 maxsize) (e0 :: mid)).maxsize := by
    rw [hSsize, hSmax]
  have hmin : (putList (LRUCache.mk0 maxsize) (e0 :: mid)).timestamps.minEntry =
      some (e0.1, e0.2.2) := by
    apply SMap.minEntry_head _ _ (mid.map (fun a => (a.1, a.2.2))) hSts
    intro y hy
    rcases List.mem_map.mp hy with ⟨a, ha, hya⟩
    rw [← hya]
    exact he0lt a ha
  have hput := put_full (putList (LRUCache.mk0 maxsize) (e0 :: mid))
    elast.1 elast.2.1 elast.2.2 hsfull (e0.1, e0.2.2) hmin
  have hstep : putList (putList (LRUCache.mk0 maxsize) (e0 :: mid)) [elast] =
      (putList (LRUCache.mk0 maxsize) (e0 :: mid)).put elast.1 elast.2.1
        elast.2.2 := rfl
  rw [hsplit, hstep, hput]
  have hcontc : containsL (mid.map (fun a => (a.1, a.2.1))) e0.1 = false := by
    cases hcc : containsL (mid.map (fun a => (a.1, a.2.1))) e0.1 with
    | false => rfl
    | true =>
      exfalso
      rw [containsL_iff_mem_keys] at hcc
      apply he0notmid
      have : (mid.map (fun a => (a.1, a.2.1))).map (·.1) = mid.map (·.1) := by
        rw [List.map_map]
        rfl
      rw [this] at hcc
      exact hcc
  have hcontt : containsL (mid.map (fun a => (a.1, a.2.2))) e0.1 = false := by
    cases hcc : containsL (mid.map (fun a => (a.1, a.2.2))) e0.1 with
    | false => rfl
    | true =>
      exfalso
      rw [containsL_iff_mem_keys] at hcc
      apply he0notmid
      have : (mid.map (fun a => (a.1, a.2.2))).map (·.1) = mid.map (·.1) := by
        rw [List.map_map]
        rfl
      rw [this] at hcc
      exact hcc
  have heraseC : ((putList (LRUCache.mk0 maxsize) (e0 :: mid)).cache.erase
      e0.1).entries = mid.map (fun a => (a.1, a.2.1)) := by
    show eraseL (putList (LRUCache.mk0 maxsize) (e0 :: mid)).cache.entries
      e0.1 = _
    rw [hScache]
    exact eraseL_cons_self_fresh (e0.1, e0.2.1) _ hcontc
  have heraseT : ((putList (LRUCache.mk0 maxsize) (e0 :: mid)).timestamps.erase
      e0.1).entries = mid.map (fun a => (a.1, a.2.2)) := by
    show eraseL (putList (LRUCache.mk0 maxsize) (e0 :: mid)).timestamps.entries
      e0.1 = _
    rw [hSts]
    exact eraseL_cons_self_fresh (e0.1, e0.2.2) _ hcontt
  have hlastfreshC : ((putList (LRUCache.mk0 maxsize) (e0 :: mid)).cache.erase
      e0.1).contains elast.1 = false := by
    show containsL _ elast.1 = false
    rw [heraseC]
    cases hcc : containsL (mid.map (fun a => (a.1, a.2.1))) elast.1 with
    | false => rfl
    | true =>
      exfalso
      rw [containsL_iff_mem_keys] at hcc
      apply hlastnotmid
      have : (mid.map (fun a => (a.1, a.2.1))).map (·.1) = mid.map (·.1) := by
        rw [List.map_map]
        rfl
      rw [this] at hcc
      exact hcc
  have hlastfreshT : ((putList (LRUCache.mk0 maxsize)
      (e0 :: mid)).timestamps.erase e0.1).contains elast.1 = false := by
    show containsL _ elast.1 = false
    rw [heraseT]
    cases hcc : containsL (mid.map (fun a => (a.1, a.2.2))) elast.1 with
    | false => rfl
    | true =>
      exfalso
      rw [containsL_iff_mem_keys] at hcc
      apply hlastnotmid
      have : (mid.map (fun a => (a.1, a.2.2))).map (·.1) = mid.map (·.1) := by
        rw [List.map_map]
        rfl
      rw [this] at hcc
      exact hcc
  constructor
  · show (((putList (LRUCache.mk0 maxsize) (e0 :: mid)).cache.erase
      e0.1).insert elast.1 elast.2.1).entries = _
    rw [SMap.entries_insert_fresh _ _ _ hlastfreshC, heraseC]
  · show (((putList (LRUCache.mk0 maxsize) (e0 :: mid)).timestamps.erase
      e0.1).insert elast.1 elast.2.2).entries = _
    rw [SMap.entries_insert_fresh _ _ _ hlastfreshT, heraseT]

/-- C6. (a) A cache constructed with capacity `maxsize ≥ 1` never holds
more than `maxsize` entries under any sequence of operations. (b) After
`maxsize + 1` puts of distinct keys with strictly increasing timestamps and
no intervening get, exactly the first-inserted key has been evicted
(the put at capacity evicts the minimum-timestamp entry) and every other
key is still retrievable, both by direct lookup and by a `get` within the
TTL window. -/
theorem C6_capacity_invariant_and_first_evicted :
    (∀ (maxsize : Nat) (ops : List (CacheOp ℚ)), 1 ≤ maxsize →
      (runOps (LRUCache.mk0 maxsize) ops).cache.size ≤ maxsize) ∧
    (∀ (maxsize : Nat) (e0 : String × ℚ × Int)
        (mid : List (String × ℚ × Int)) (elast : String × ℚ × Int),
      mid.length + 1 = maxsize →
      ((e0 :: (mid ++ [elast])).map (·.1)).Nodup →
      ((e0 :: (mid ++ [elast])).map (fun e => e.2.2)).Pairwise (· < ·) →
      (putList (LRUCache.mk0 maxsize)
          (e0 :: (mid ++ [elast]))).cache.lookup e0.1 = none ∧
      (∀ a ∈ mid,
        (putList (LRUCache.mk0 maxsize)
            (e0 :: (mid ++ [elast]))).cache.lookup a.1 = some a.2.1 ∧
        (∀ tq : Int, ¬ (tq - a.2.2 > CACHE_TIMEOUT) →
          ((putList (LRUCache.mk0 maxsize)
              (e0 :: (mid ++ [elast]))).get a.1 tq).1 = some a.2.1)) ∧
      (putList (LRUCache.mk0 maxsize)
          (e0 :: (mid ++ [elast]))).cache.lookup elast.1 = some elast.2.1 ∧
      (∀ tq : Int, ¬ (tq - elast.2.2 > CACHE_TIMEOUT) →
        ((putList (LRUCache.mk0 maxsize)
            (e0 :: (mid ++ [elast]))).get elast.1 tq).1 = some elast.2.1)) := by
  constructor
  · intro maxsize ops hmax
    have h := runOps_invariant (LRUCache.mk0 maxsize) ops hmax rfl
      (Nat.zero_le _)
    have h2 := h.2.1
    rw [h.2.2] at h2
    exact h2
  · intro maxsize e0 mid elast hlen hnd hinc
    obtain ⟨hc, ht⟩ := putList_scenario_entries maxsize e0 mid elast hlen
      hnd hinc
    -- Key shape facts from Nodup.
    have hndshape : (e0.1 :: (mid.map (·.1) ++ [elast.1])).Nodup := by
      have : (e0 :: (mid ++ [elast])).map (·.1) =
          e0.1 :: (mid.map (·.1) ++ [elast.1]) := by
        simp [List.map_append]
      rw [this] at hnd
      exact hnd
    rw [List.nodup_cons] at hndshape
    have he0notmid : e0.1 ∉ mid.map (·.1) := by
      intro hx
      exact hndshape.1 (List.mem_append.mpr (Or.inl hx))
    have he0notlast : e0.1 ≠ elast.1 := by
      intro hx
      exact hndshape.1 (List.mem_append.mpr (Or.inr (by simp [hx])))
    have hndtail := hndshape.2
    have hlastnotmid : elast.1 ∉ mid.map (·.1) := by
      rw [List.nodup_append] at hndtail
      intro hx
      exact hndtail.2.2 hx (by simp)
    have hkeysC : (mid.map (fun a => (a.1, a.2.1)) ++
        [(elast.1, elast.2.1)]).map (·.1) = mid.map (·.1) ++ [elast.1] := by
      rw [List.map_append, List.map_map]
      rfl
    have hkeysT : (mid.map (fun a => (a.1, a.2.2)) ++
        [(elast.1, elast.2.2)]).map (·.1) = mid.map (·.1) ++ [elast.1] := by
      rw [List.map_append, List.map_map]
      rfl
    have hlookupC : ∀ x, (putList (LRUCache.mk0 maxsize)
        (e0 :: (mid ++ [elast]))).cache.lookup x =
        lookupL (mid.map (fun a => (a.1, a.2.1)) ++
          [(elast.1, elast.2.1)]) x := by
      intro x
      show lookupL _ x = _
      rw [hc]
    have hlookupT : ∀ x, (putList (LRUCache.mk0 maxsize)
        (e0 :: (mid ++ [elast]))).timestamps.lookup x =
        lookupL (mid.map (fun a => (a.1, a.2.2)) ++
          [(elast.1, elast.2.2)]) x := by
      intro x
      show lookupL _ x = _
      rw [ht]
    refine ⟨?_, ?_, ?_, ?_⟩
    · -- the first-inserted key is gone
      rw [hlookupC]
      apply lookupL_none_of_contains_false
      cases hcc : containsL (mid.map (fun a => (a.1, a.2.1)) ++
          [(elast.1, elast.2.1)]) e0.1 with
      | false => rfl
      | true =>
        exfalso
        rw [containsL_iff_mem_keys, hkeysC] at hcc
        rcases List.mem_append.mp hcc with h1 | h1
        · exact he0notmid h1
        · exact he0notlast (by simpa using h1)
    · -- every middle key is retrievable
      intro a ha
      have hmemC : (a.1, a.2.1) ∈ mid.map (fun a => (a.1, a.2.1)) ++
          [(elast.1, elast.2.1)] :=
        List.mem_append.mpr (Or.inl (List.mem_map_of_mem _ ha))
      have hmemT : (a.1, a.2.2) ∈ mid.map (fun a => (a.1, a.2.2)) ++
          [(elast.1, elast.2.2)] :=
        List.mem_append.mpr (Or.inl (List.mem_map_of_mem _ ha))
      have hlkC : (putList (LRUCache.mk0 maxsize)
          (e0 :: (mid ++ [elast]))).cache.lookup a.1 = some a.2.1 := by
        rw [hlookupC]
        exact lookupL_of_mem_nodup _ _ _ hmemC (by rw [hkeysC]; exact hndtail)
      have hlkT : (putList (LRUCache.mk0 maxsize)
          (e0 :: (mid ++ [elast]))).timestamps.lookup a.1 = some a.2.2 := by
        rw [hlookupT]
        exact lookupL_of_mem_nodup _ _ _ hmemT (by rw [hkeysT]; exact hndtail)
      exact ⟨hlkC, fun tq htq => get_hit _ _ _ _ _ hlkC hlkT htq⟩
    · rw [hlookupC]
      apply lookupL_append_fresh
      cases hcc : containsL (mid.map (fun a => (a.1, a.2.1))) elast.1 with
      | false => rfl
      | true =>
        exfalso
        rw [containsL_iff_mem_keys, List.map_map] at hcc
        exact hlastnotmid hcc
    · intro tq htq
      have hlkC : (putList (LRUCache.mk0 maxsize)
          (e0 :: (mid ++ [elast]))).cache.lookup elast.1 = some elast.2.1 := by
        rw [hlookupC]
        apply lookupL_append_fresh
        cases hcc : containsL (mid.map (fun a => (a.1, a.2.1))) elast.1 with
        | false => rfl
        | true =>
          exfalso
          rw [containsL_iff_mem_keys, List.map_map] at hcc
          exact hlastnotmid hcc
      have hlkT : (putList (LRUCache.mk0 maxsize)
          (e0 :: (mid ++ [elast]))).timestamps.lookup elast.1 =
          some elast.2.2 := by
        rw [hlookupT]
        apply lookupL_append_fresh
        cases hcc : containsL (mid.map (fun a => (a.1, a.2.2))) elast.1 with
        | false => rfl
        | true =>
          exfalso
          rw [containsL_iff_mem_keys, List.map_map] at hcc
          exact hlastnotmid hcc
      exact get_hit _ _ _ _ _ hlkC hlkT htq

/-- C6 witness: capacity 2, puts of `a`, `b`, `c` at times 0, 1, 2 — `a` is
evicted, `b` and `c` remain retrievable; and a concrete operation sequence
keeps the size within capacity. -/
theorem C6_capacity_invariant_and_first_evicted_witness :
    (runOps (LRUCache.mk0 2 : LRUCache ℚ)
      [CacheOp.put "x" 1 0, CacheOp.put "y" 2 1, CacheOp.put "z" 3 2,
       CacheOp.get "y" 3]).cache.size ≤ 2 ∧
    (putList (LRUCache.mk0 2 : LRUCache ℚ)
      [("a", 1, 0), ("b", 2, 1), ("c", 3, 2)]).cache.lookup "a" = none ∧
    (putList (LRUCache.mk0 2 : LRUCache ℚ)
      [("a", 1, 0), ("b", 2, 1), ("c", 3, 2)]).cache.lookup "b" = some 2 ∧
    ((putList (LRUCache.mk0 2 : LRUCache ℚ)
      [("a", 1, 0), ("b", 2, 1), ("c", 3, 2)]).get "b" 100).1 = some 2 ∧
    (putList (LRUCache.mk0 2 : LRUCache ℚ)
      [("a", 1, 0), ("b", 2, 1), ("c", 3, 2)]).cache.lookup "c" = some 3 := by
  have ha := C6_capacity_invariant_and_first_evicted.1 2
    [CacheOp.put "x" 1 0, CacheOp.put "y" 2 1, CacheOp.put "z" 3 2,
     CacheOp.get "y" 3] (by decide)
  have hb := C6_capacity_invariant_and_first_evicted.2 2 ("a", 1, 0)
    [("b", 2, 1)] ("c", 3, 2) (by decide) (by decide) (by decide)
  have hmid := hb.2.1 ("b", 2, 1) (by decide)
  exact ⟨ha, hb.1, hmid.1, hmid.2 100 (by decide), hb.2.2.1⟩

/-- C7 counterexample. `brisque`'s bands are listed in ascending order, yet
`interpret 20` returns the `[0, 20]` band's label, not the `[20, 40)` one:
`ScoreRange.contains` uses a closed interval (`min <= score <= max`), so a
boundary score matches the earlier band, while the claim's half-open
`[start, end)` walk would return the later band's label. -/
theorem C7_counterexample :
    brisqueInterpretation.interpret 20 =
      "Excellent quality (highly natural images)" ∧
    interpretHalfOpenFirst brisqueInterpretation 20 =
      some "Good quality (natural images)" ∧
    brisqueInterpretation.ranges.map ScoreRange.min_val =
      [FloatV.fin 0, FloatV.fin 20, FloatV.fin 40, FloatV.fin 60,
       FloatV.fin 80] ∧
    "Excellent quality (highly natural images)" ≠
      "Good quality (natural images)" := by
  exact ⟨by rfl, by rfl, by rfl, by decide⟩

/-- C8. `track` is a transparent observer: the wrapped call's outcome is
exactly the wrapped function's outcome (value or exception, via the
`try/finally`), and the statistics record for the operation name is updated
exactly once per invocation — count incremented, duration added to the
total, min/max folded in, average recomputed — while every other name's
record is untouched. -/
theorem C8_track_transparent_updates_once {α β : Type}
    (m : SMap OpStats) (func_name : String) (func : α → Except String β)
    (duration : ℚ) (x : α) :
    (track m func_name func duration x).1 = func x ∧
    (track m func_name func duration x).2.lookup func_name =
      some { count := ((m.lookup func_name).getD OpStats.fresh).count + 1,
             total_time :=
               ((m.lookup func_name).getD OpStats.fresh).total_time + duration,
             min_time :=
               FloatV.minv ((m.lookup func_name).getD OpStats.fresh).min_time
                 (FloatV.fin duration),
             max_time :=
               max ((m.lookup func_name).getD OpStats.fresh).max_time duration,
             avg_time :=
               (((m.lookup func_name).getD OpStats.fresh).total_time +
                 duration) /
               (((m.lookup func_name).getD OpStats.fresh).count + 1) } ∧
    (∀ k, k ≠ func_name →
      (track m func_name func duration x).2.lookup k = m.lookup k) := by
  refine ⟨rfl, ?_, ?_⟩
  · show (updateMetrics m func_name duration).lookup func_name = _
    unfold updateMetrics
    cases hm : m.lookup func_name with
    | none =>
      dsimp only
      rw [SMap.lookup_insert_self]
      simp [OpStats.fresh]
    | some s =>
      dsimp only
      rw [SMap.lookup_insert_self]
      rfl
  · intro k hk
    show (updateMetrics m func_name duration).lookup k = m.lookup k
    unfold updateMetrics
    cases hm : m.lookup func_name with
    | none =>
      dsimp only
      exact SMap.lookup_insert_ne _ _ _ _ hk
    | some s =>
      dsimp only
      exact SMap.lookup_insert_ne _ _ _ _ hk

/-- C8 witness: a failing operation still returns its exception unchanged
and bumps the concrete statistics exactly once. -/
theorem C8_track_transparent_updates_once_witness :
    (track (SMap.empty : SMap OpStats) "op"
      (fun _ : Nat => (Except.error "bang" : Except String Nat)) 2 7).1 =
      Except.error "bang" ∧
    (track (SMap.empty : SMap OpStats) "op"
      (fun _ : Nat => (Except.error "bang" : Except String Nat)) 2 7).2.lookup
      "op" = some { count := 1, total_time := 2,
                    min_time := FloatV.fin 2, max_time := 2, avg_time := 2 } ∧
    (track (SMap.empty : SMap OpStats) "op"
      (fun _ : Nat => (Except.error "bang" : Except String Nat)) 2 7).2.lookup
      "other" = none := by
  have h := C8_track_transparent_updates_once
    (SMap.empty : SMap OpStats) "op"
    (fun _ : Nat => (Except.error "bang" : Except String Nat)) 2 7
  refine ⟨h.1, ?_, h.2.2 "other" (by decide)⟩
  rw [h.2.1, SMap.lookup_empty, Option.getD_none]
  norm_num [OpStats.fresh, FloatV.minv]

/-- The first-match behaviour of `List.find?` over a split list. -/
theorem find?_append_first {γ : Type} (p : γ → Bool) (r : γ) (l2 : List γ) :
    ∀ l1 : List γ, (∀ x ∈ l1, p x = false) → p r = true →
    (l1 ++ r :: l2).find? p = some r := by
  intro l1
  induction l1 with
  | nil =>
    intro _ hr
    rw [List.nil_append]
    exact List.find?_cons_of_pos _ hr
  | cons a as ih =>
    intro hmiss hr
    have hpa : ¬ (p a = true) := by
      rw [hmiss a (List.mem_cons_self _ _)]
      exact Bool.noConfusion
    rw [List.cons_append, List.find?_cons_of_neg _ hpa]
    exact ih (fun x hx => hmiss x (List.mem_cons_of_mem _ hx)) hr

/-- C7 amended. `MetricInterpretation.interpret` walks the bands in the
order they are listed in the catalog (not sorted), returns the description
of the first band whose closed interval `[min_val, max_val]` contains the
score, falls back to the sentinel `"Score out of expected ranges"` when no
band matches, and the `get_metric_interpretation` tool response carries an
`interpretation` field only when a score was supplied. -/
theorem C7_interpret_closed_listed_order :
    (∀ (mi : MetricInterpretation) (s : ℚ) (l1 : List ScoreRange)
        (r : ScoreRange) (l2 : List ScoreRange),
      mi.ranges = l1 ++ r :: l2 →
      (∀ r' ∈ l1, r'.containsScore s = false) →
      r.containsScore s = true →
      mi.interpret s = r.description) ∧
    (∀ (mi : MetricInterpretation) (s : ℚ),
      (∀ r' ∈ mi.ranges, r'.containsScore s = false) →
      mi.interpret s = "Score out of expected ranges") ∧
    (∀ (table : SMap InterpEntry) (metric_name : String) (score : Option ℚ)
        (resp : InterpResponse),
      get_metric_interpretation table metric_name score = Except.ok resp →
      resp.interpretation.isSome → score.isSome) := by
  refine ⟨?_, ?_, ?_⟩
  · intro mi s l1 r l2 hranges hmiss hhit
    unfold MetricInterpretation.interpret
    rw [hranges]
    rw [find?_append_first (fun r' => r'.containsScore s) r l2 l1 hmiss hhit]
  · intro mi s hmiss
    unfold MetricInterpretation.interpret
    have hfind : mi.ranges.find? (fun r' => r'.containsScore s) = none := by
      rw [List.find?_eq_none]
      intro r' hr'
      rw [hmiss r' hr']
      exact Bool.noConfusion
    rw [hfind]
  · intro table metric_name score resp h hi
    unfold get_metric_interpretation at h
    cases htab : table.lookup metric_name with
    | none =>
      rw [htab] at h
      exact Except.noConfusion h
    | some interp =>
      rw [htab] at h
      cases score with
      | none =>
        dsimp only at h
        injection h with h'
        rw [← h'] at hi
        exact absurd hi (by simp)
      | some s =>
        rfl

/-- C7 witness: the amended first-matching-closed-band rule at a concrete
interior score of the brisque table. -/
theorem C7_interpret_closed_listed_order_witness :
    brisqueInterpretation.interpret 50 =
      "Fair quality (mildly distorted images)" := by
  exact C7_interpret_closed_listed_order.1 brisqueInterpretation 50
    [⟨FloatV.fin 0, FloatV.fin 20, "Excellent quality (highly natural images)"⟩,
     ⟨FloatV.fin 20, FloatV.fin 40, "Good quality (natural images)"⟩]
    ⟨FloatV.fin 40, FloatV.fin 60, "Fair quality (mildly distorted images)"⟩
    [⟨FloatV.fin 60, FloatV.fin 80, "Poor quality (distorted images)"⟩,
     ⟨FloatV.fin 80, FloatV.fin 100,
       "Very poor quality (heavily distorted images)"⟩]
    (by rfl) (by decide) (by decide)

/-- Every successful single-image response carries the request's image path
in its metadata. -/
theorem handle_assess_metadata_image (env : Env) (cache : LRUCache ℚ)
    (now : Int) (image_path : String) (metrics : Option (List String))
    (reference_path : Option String) (resp : Response) (c' : LRUCache ℚ)
    (h : handle_assess_image_quality env cache now image_path metrics
      reference_path = Except.ok (resp, c')) :
    resp.metadata.image_path = image_path := by
  unfold handle_assess_image_quality at h
  cases hv : env.validImage image_path with
  | some err =>
    rw [hv] at h
    exact Except.noConfusion h
  | none =>
    rw [hv] at h
    dsimp only at h
    cases hrv : (if refTruthy reference_path then
        env.validImage (reference_path.getD "") else none) with
    | some err =>
      rw [hrv] at h
      exact Except.noConfusion h
    | none =>
      rw [hrv] at h
      dsimp only at h
      by_cases hna : ¬ (frOf env (effectiveMetrics env metrics
          reference_path)).isEmpty ∧ ¬ refTruthy reference_path
      · rw [if_pos hna] at h
        exact Except.noConfusion h
      · rw [if_neg hna] at h
        injection h with h'
        have h2 := congrArg (fun rc => rc.1.metadata.image_path) h'
        dsimp only at h2
        rw [← h2]
        rfl

theorem list_head_eq_get_zero {γ : Type} (l : List γ) : l.head? = l.get? 0 := by
  cases l with
  | nil => rfl
  | cons a as => rfl

theorem list_tail_get {γ : Type} (l : List γ) (i : Nat) :
    l.tail.get? i = l.get? (i + 1) := by
  cases l with
  | nil => rfl
  | cons a as => rfl

theorem refs_tail_bind (refs : Option (List String)) (i : Nat) :
    (refs.map (·.tail)).bind (fun l => l.get? i) =
      refs.bind (fun l => l.get? (i + 1)) := by
  cases refs with
  | none => rfl
  | some l =>
    show l.tail.get? i = l.get? (i + 1)
    exact list_tail_get l i

theorem batchGo_cons (env : Env) (now : Int) (metrics : Option (List String))
    (img0 : String) (rest : List String) (refs : Option (List String))
    (cache : LRUCache ℚ) :
    batchGo env now metrics (img0 :: rest) refs cache =
      match handle_assess_image_quality env cache now img0 metrics
          (refs.bind (·.head?)) with
      | Except.ok (resp, cache') =>
        match batchGo env now metrics rest (refs.map (·.tail)) cache' with
        | (items, cacheF) => (resp :: items, cacheF)
      | Except.error e =>
        match batchGo env now metrics rest (refs.map (·.tail)) cache with
        | (items, cacheF) =>
            (syntheticSlot img0 (refs.bind (·.head?)) e :: items,
              cacheF) := rfl

/-- The batch loop of the first `handle_batch_assessment`: the output list
has one slot per input index, slot `i` carries input image `i`'s path in
its metadata, and an image whose validation fails gets the synthetic
`assessment_error` slot. -/
theorem batchGo_spec (env : Env) (now : Int) (metrics : Option (List String)) :
    ∀ (imgs : List String) (refs : Option (List String)) (cache : LRUCache ℚ),
    (batchGo env now metrics imgs refs cache).1.length = imgs.length ∧
    (∀ i, ((batchGo env now metrics imgs refs cache).1.get? i).map
        (fun r => r.metadata.image_path) = imgs.get? i) ∧
    (∀ i img err, imgs.get? i = some img → env.validImage img = some err →
      (batchGo env now metrics imgs refs cache).1.get? i =
        some (syntheticSlot img (refs.bind (fun l => l.get? i))
          ("Invalid image path: " ++ err))) := by
  intro imgs
  induction imgs with
  | nil =>
    intro refs cache
    refine ⟨rfl, ?_, ?_⟩
    · intro i
      cases i with
      | zero => rfl
      | succ n => rfl
    · intro i img err h1 _
      cases i with
      | zero => exact Option.noConfusion h1
      | succ n => exact Option.noConfusion h1
  | cons img0 rest ih =>
    intro refs cache
    rw [batchGo_cons]
    cases hh : handle_assess_image_quality env cache now img0 metrics
        (refs.bind (·.head?)) with
    | ok rc =>
      rcases rc with ⟨resp, cache'⟩
      dsimp only
      have hih := ih (refs.map (·.tail)) cache'
      refine ⟨?_, ?_, ?_⟩
      · rw [List.length_cons, hih.1, List.length_cons]
      · intro i
        cases i with
        | zero =>
          simp only [List.get?_cons_zero, Option.map_some']
          rw [handle_assess_metadata_image env cache now img0 metrics
            (refs.bind (·.head?)) resp cache' hh]
        | succ n =>
          simp only [List.get?_cons_succ]
          exact hih.2.1 n
      · intro i img err h1 h2
        cases i with
        | zero =>
          exfalso
          rw [List.get?_cons_zero] at h1
          injection h1 with h1'
          rw [← h1'] at h2
          rw [handle_assess_invalid_image env cache now img0 metrics
            (refs.bind (·.head?)) err h2] at hh
          exact Except.noConfusion hh
        | succ n =>
          simp only [List.get?_cons_succ]
          rw [List.get?_cons_succ] at h1
          have hr := hih.2.2 n img err h1 h2
          rw [hr, refs_tail_bind]
    | error e =>
      dsimp only
      have hih := ih (refs.map (·.tail)) cache
      refine ⟨?_, ?_, ?_⟩
      · rw [List.length_cons, hih.1, List.length_cons]
      · intro i
        cases i with
        | zero =>
          simp only [List.get?_cons_zero, Option.map_some']
          rfl
        | succ n =>
          simp only [List.get?_cons_succ]
          exact hih.2.1 n
      · intro i img err h1 h2
        cases i with
        | zero =>
          rw [List.get?_cons_zero] at h1
          injection h1 with h1'
          rw [← h1'] at h2 ⊢
          rw [handle_assess_invalid_image env cache now img0 metrics
            (refs.bind (·.head?)) err h2] at hh
          injection hh with hh'
          rw [List.get?_cons_zero, ← hh']
          have hzero : refs.bind (fun l => l.get? 0) =
              refs.bind (·.head?) := by
            cases refs with
            | none => rfl
            | some l =>
              show l.get? 0 = l.head?
              exact (list_head_eq_get_zero l).symm
          rw [hzero]
        | succ n =>
          simp only [List.get?_cons_succ]
          rw [List.get?_cons_succ] at h1
          have hr := hih.2.2 n img err h1 h2
          rw [hr, refs_tail_bind]

/-- C2. (Intended behaviour, first definition of `handle_batch_assessment`,
lines 114–164.) The batch output has exactly one slot per input image, in
input order; slot `i` carries input path `i` in its metadata; a per-image
unit that fails entirely (here: the image fails validation) yields the
synthetic slot whose errors map is exactly the single reserved
`assessment_error` entry. The final conjunct evaluates the *effective*
(later, shadowing) definition at a failing input: its failure slot is a
`success/error` record carrying no errors map at all — the code bug that
breaks this claim in the shipped module. -/
theorem C2_batch_order_slots
    (env : Env) (cache : LRUCache ℚ) (now : Int) (image_paths : List String)
    (metrics : Option (List String)) (reference_paths : Option (List String))
    (hok : ¬ (rpTruthyOf reference_paths = true ∧
      (reference_paths.getD []).length ≠ image_paths.length)) :
    ((handle_batch_assessment env cache now image_paths metrics
        reference_paths).toOption.map (fun rc => rc.1.length)) =
      some image_paths.length ∧
    (∀ i, ((handle_batch_assessment env cache now image_paths metrics
        reference_paths).toOption.map (fun rc =>
          (rc.1.get? i).map (fun r => r.metadata.image_path))) =
      some (image_paths.get? i)) ∧
    (∀ i img err, image_paths.get? i = some img →
      env.validImage img = some err →
      ((handle_batch_assessment env cache now image_paths metrics
          reference_paths).toOption.map (fun rc => rc.1.get? i)) =
        some (some (syntheticSlot img
          ((if rpTruthyOf reference_paths = true then reference_paths
            else none).bind (fun l => l.get? i))
          ("Invalid image path: " ++ err)))) ∧
    (∀ img ref e, (syntheticSlot img ref e).errors.entries =
      [("assessment_error", e)]) ∧
    (handle_batch_assessment_redef (fun _ => Except.error "boom")
        ["bad.png"] = [BatchItem2.fail "bad.png" "boom"] ∧
      (BatchItem2.fail "bad.png" "boom").errorsMap = none) := by
  unfold handle_batch_assessment
  rw [if_neg hok]
  simp only [Except.toOption, Option.map]
  have hb := batchGo_spec env now metrics image_paths
    (if rpTruthyOf reference_paths = true then reference_paths else none)
    cache
  refine ⟨?_, ?_, ?_, ?_, ?_, ?_⟩
  · exact congrArg some hb.1
  · intro i
    exact congrArg some (hb.2.1 i)
  · intro i img err h1 h2
    exact congrArg some (hb.2.2 i img err h1 h2)
  · intro img ref e
    rfl
  · rfl
  · rfl

/-- C2 witness: a three-image batch in which the second image fails
validation — three slots in input order, the failed one being the
synthetic `assessment_error` slot. -/
theorem C2_batch_order_slots_witness :
    ((handle_batch_assessment envCorrupt (LRUCache.mk0 1000) 0
        ["a.png", "corrupt.png", "b.png"] (some ["niqe"]) none).toOption.map
      (fun rc => rc.1.length)) = some 3 ∧
    ((handle_batch_assessment envCorrupt (LRUCache.mk0 1000) 0
        ["a.png", "corrupt.png", "b.png"] (some ["niqe"]) none).toOption.map
      (fun rc => (rc.1.get? 2).map (fun r => r.metadata.image_path))) =
      some (some "b.png") ∧
    ((handle_batch_assessment envCorrupt (LRUCache.mk0 1000) 0
        ["a.png", "corrupt.png", "b.png"] (some ["niqe"]) none).toOption.map
      (fun rc => rc.1.get? 1)) =
      some (some (syntheticSlot "corrupt.png" none
        ("Invalid image path: " ++ "Invalid image file: bad header"))) := by
  have h := C2_batch_order_slots envCorrupt (LRUCache.mk0 1000) 0
    ["a.png", "corrupt.png", "b.png"] (some ["niqe"]) none (by decide)
  refine ⟨h.1, h.2.1 2, ?_⟩
  have h3 := h.2.2.1 1 "corrupt.png" "Invalid image file: bad header"
    (by rfl) (by rfl)
  rw [h3]
  rfl

end IQA
